import Mathlib

/-!
Verification of the bidirectional / sequential Dijkstra shortest-path core.

The Rust sources are shallowly embedded: `usize` becomes `Nat` with the
saturating additions written as explicit clamps at `USIZE_MAX` and the one
plain (wrapping-on-overflow) addition written as an explicit `% 2 ^ 64`;
`Vec` indexing becomes `List.getD`/`List.set` (a Rust index out of bounds
panics; the two panics that are actually reachable for in-range edges, the
initial distance-array writes, are modelled by an `Option` result, and all
other reads/writes carry in-bounds invariants so the `getD` defaults are
never consulted); `BinaryHeap` over the custom `Ord` (min cost first,
larger position first among equal costs) becomes a list together with a
pop function that selects exactly the element the Rust heap would return,
which is uniquely determined because the order is total on values.
-/

namespace PBD

/-- Graph representation used by the Rust code: adjacency lists of
(neighbor, weight) pairs. -/
abbrev Graph := List (List (Nat × Nat))

/-- Largest `usize` value, the "infinite" sentinel of the Rust code. -/
def USIZE_MAX : Nat := 2 ^ 64 - 1

/-- Modulus of `usize` arithmetic. -/
def USIZE_MOD : Nat := 2 ^ 64

/-- Rust `usize::saturating_add`. -/
def satAdd (a b : Nat) : Nat := min (a + b) USIZE_MAX

/-- Rust wrapping addition `a + b` on `usize` (release-profile semantics of
the overflowing `+` at the loop's termination test). -/
def wrapAdd (a b : Nat) : Nat := (a + b) % USIZE_MOD

/-- A graph is well formed when every edge target is a valid node index and
every weight is a `usize` value.  The Rust type system guarantees the weight
bound; the index bound is an implicit precondition of the Rust code (an
out-of-range edge target makes it panic). -/
def WellFormed (g : Graph) : Prop :=
  ∀ es ∈ g, ∀ e ∈ es, (Prod.fst e) < g.length ∧ (Prod.snd e) ≤ USIZE_MAX

instance : DecidablePred WellFormed := fun g => by
  unfold WellFormed; infer_instance

/-- Heap entries are (cost, position) pairs, as in the Rust `State` struct. -/
abbrev HeapEntry := Nat × Nat

/-- The Rust `Ord` on `State` makes the `BinaryHeap` pop the entry with the
least cost, breaking cost ties towards the largest position.
`popsBefore a b` says the heap would yield `a` in preference to `b`. -/
def popsBefore (a b : HeapEntry) : Bool :=
  a.1 < b.1 || (a.1 == b.1 && b.2 < a.2)

/-- Model of `BinaryHeap::pop`: return the entry the Rust heap would pop
together with the remaining entries.  The popped value is uniquely
determined by the entries because the Rust order is total on values. -/
def heapPop : List HeapEntry → Option (HeapEntry × List HeapEntry)
  | [] => none
  | x :: xs =>
    match heapPop xs with
    | none => some (x, [])
    | some (b, rest) => if popsBefore b x then some (b, x :: rest) else some (x, xs)

/-- Model of `BinaryHeap::peek`. -/
def heapPeek (h : List HeapEntry) : Option HeapEntry :=
  (heapPop h).map Prod.fst

/-- Result of one `discover_nodes` call: the mutated distance array, heap and
predecessor table, plus the threaded estimate and local join node. -/
structure DiscoverResult where
  dist : List Nat
  heap : List HeapEntry
  prev : List (Option Nat)
  estimate : Nat
  local_join : Option Nat
deriving Repr, DecidableEq

/-- Body of the `for` loop of `discover_nodes` (src/bidirectional_dijkstra.rs,
lines 104-118), iterated over the edge list.  `other_dist` is only read, as
in the Rust code. -/
def discoverAux (node : Nat) (other_dist : List Nat) :
    List (Nat × Nat) → List Nat → List HeapEntry → List (Option Nat) →
    Nat → Option Nat → DiscoverResult
  | [], dist, heap, prev, estimate, lj =>
    ⟨dist, heap, prev, estimate, lj⟩
  | (neighbor, weight) :: rest, dist, heap, prev, estimate, lj =>
    let new_cost := satAdd (dist.getD node 0) weight
    let dist1 := if new_cost < dist.getD neighbor 0 then dist.set neighbor new_cost else dist
    let heap1 := if new_cost < dist.getD neighbor 0 then (new_cost, neighbor) :: heap else heap
    let prev1 := if new_cost < dist.getD neighbor 0 then prev.set neighbor (some node) else prev
    let est1 := if other_dist.getD neighbor 0 ≠ USIZE_MAX ∧
        satAdd new_cost (other_dist.getD neighbor 0) < estimate then
        satAdd new_cost (other_dist.getD neighbor 0) else estimate
    let lj1 := if other_dist.getD neighbor 0 ≠ USIZE_MAX ∧
        satAdd new_cost (other_dist.getD neighbor 0) < estimate then
        some neighbor else lj
    discoverAux node other_dist rest dist1 heap1 prev1 est1 lj1

/-- The `discover_nodes` function (src/bidirectional_dijkstra.rs, lines
92-121).  It returns the mutated structures and, through
`local_join`/`estimate`, the `Option<(usize, usize)>` of the Rust code: the
returned option is `some (estimate, j)` exactly when `local_join = some j`,
and the estimate field is unchanged whenever `local_join` is `none`. -/
def discover_nodes (edges : List (Nat × Nat)) (node : Nat)
    (dist other_dist : List Nat) (heap : List HeapEntry)
    (prev : List (Option Nat)) (estimate : Nat) (join_node : Option Nat) :
    DiscoverResult :=
  discoverAux node other_dist edges dist heap prev estimate join_node

/-- State of the bidirectional search loop (src/bidirectional_dijkstra.rs,
lines 40-53). -/
structure BidiState where
  dist_fwd : List Nat
  dist_bwd : List Nat
  heap_fwd : List HeapEntry
  heap_bwd : List HeapEntry
  prev_fwd : List (Option Nat)
  prev_bwd : List (Option Nat)
  estimate : Nat
  join_node : Option Nat
deriving Repr, DecidableEq

/-- Loop guard of the `while` at line 55 combined with the `break` at lines
61-63: the loop keeps going while both heaps are nonempty and the (wrapping)
sum of the two frontier minima is below the estimate. -/
def bidiContinue (s : BidiState) : Bool :=
  match heapPeek s.heap_fwd, heapPeek s.heap_bwd with
  | some (cost_fwd, _), some (cost_bwd, _) => wrapAdd cost_fwd cost_bwd < s.estimate
  | _, _ => false

/-- One iteration of the bidirectional loop body (lines 55-78): peek both
heaps, stop if either is empty or the wrapped sum of minima reached the
estimate, otherwise pop the forward heap when its minimum is strictly
smaller and the backward heap otherwise, and run `discover_nodes` on the
popped node's edges (forward graph / reverse graph respectively). -/
def bidiStep (graph rev_graph : Graph) (s : BidiState) : BidiState :=
  match heapPop s.heap_fwd, heapPop s.heap_bwd with
  | some ((cost_fwd, pos_fwd), restF), some ((cost_bwd, pos_bwd), restB) =>
    if s.estimate ≤ wrapAdd cost_fwd cost_bwd then s
    else if cost_fwd < cost_bwd then
      let r := discover_nodes (graph.getD pos_fwd []) pos_fwd s.dist_fwd s.dist_bwd
        restF s.prev_fwd s.estimate s.join_node
      match r.local_join with
      | some j =>
        { s with dist_fwd := r.dist, heap_fwd := r.heap, prev_fwd := r.prev,
                 estimate := r.estimate, join_node := some j }
      | none =>
        { s with dist_fwd := r.dist, heap_fwd := r.heap, prev_fwd := r.prev }
    else
      let r := discover_nodes (rev_graph.getD pos_bwd []) pos_bwd s.dist_bwd s.dist_fwd
        restB s.prev_bwd s.estimate s.join_node
      match r.local_join with
      | some j =>
        { s with dist_bwd := r.dist, heap_bwd := r.heap, prev_bwd := r.prev,
                 estimate := r.estimate, join_node := some j }
      | none =>
        { s with dist_bwd := r.dist, heap_bwd := r.heap, prev_bwd := r.prev }
  | _, _ => s

/-- Termination measure for both search loops: total of all recorded
distances plus the number of pending heap entries.  Every push strictly
improves a distance, so each loop iteration strictly decreases it. -/
def bidiMeasure (s : BidiState) : Nat :=
  s.dist_fwd.sum + s.dist_bwd.sum + s.heap_fwd.length + s.heap_bwd.length

theorem heapPop_eq_none {h : List HeapEntry} : heapPop h = none ↔ h = [] := by
  cases h with
  | nil => simp [heapPop]
  | cons x xs =>
    simp only [heapPop]
    cases heapPop xs with
    | none => simp
    | some br =>
      obtain ⟨b, rest⟩ := br
      by_cases hb : popsBefore b x <;> simp [hb]

theorem heapPop_length {h : List HeapEntry} {e : HeapEntry}
    {rest : List HeapEntry} (hp : heapPop h = some (e, rest)) :
    rest.length + 1 = h.length := by
  induction h generalizing e rest with
  | nil => simp [heapPop] at hp
  | cons x xs ih =>
    simp only [heapPop] at hp
    cases hxs : heapPop xs with
    | none =>
      rw [hxs] at hp
      have hnil : xs = [] := heapPop_eq_none.mp hxs
      simp only [Option.some_inj, Prod.mk.injEq] at hp
      subst hnil
      simp [← hp.2]
    | some br =>
      obtain ⟨b, rest0⟩ := br
      rw [hxs] at hp
      by_cases hb : popsBefore b x
      · simp only [hb, if_true, Option.some_inj, Prod.mk.injEq] at hp
        have hlen := ih hxs
        rw [← hp.2]
        simp only [List.length_cons]
        omega
      · simp [hb] at hp
        rw [← hp.2]
        simp

theorem sum_set_getD {l : List Nat} {i : Nat} (v : Nat) (hi : i < l.length) :
    (l.set i v).sum + l.getD i 0 = l.sum + v := by
  induction l generalizing i with
  | nil => simp at hi
  | cons a as ih =>
    cases i with
    | zero => simp [List.getD]; omega
    | succ j =>
      simp only [List.set, List.sum_cons, List.getD_cons_succ]
      have := @ih j (by simpa using hi)
      omega

theorem discoverAux_measure (node : Nat) (other : List Nat)
    (edges : List (Nat × Nat)) (dist : List Nat) (heap : List HeapEntry)
    (prev : List (Option Nat)) (est : Nat) (lj : Option Nat) :
    (discoverAux node other edges dist heap prev est lj).dist.sum +
      (discoverAux node other edges dist heap prev est lj).heap.length ≤
      dist.sum + heap.length := by
  induction edges generalizing dist heap prev est lj with
  | nil => simp [discoverAux]
  | cons e rest ih =>
    obtain ⟨neighbor, weight⟩ := e
    simp only [discoverAux]
    by_cases hlt : satAdd (dist.getD node 0) weight < dist.getD neighbor 0
    · have hnb : neighbor < dist.length := by
        by_contra hge
        have : dist.getD neighbor 0 = 0 := List.getD_eq_default _ _ (by omega)
        omega
      have hsum := @sum_set_getD dist neighbor
        (satAdd (dist.getD node 0) weight) hnb
      simp only [hlt, if_true]
      refine le_trans (ih _ _ _ _ _) ?_
      simp only [List.length_cons]
      omega
    · simp only [hlt, if_false]
      exact ih _ _ _ _ _

theorem bidiStep_measure {graph rev_graph : Graph} {s : BidiState}
    (hc : bidiContinue s = true) :
    bidiMeasure (bidiStep graph rev_graph s) < bidiMeasure s := by
  unfold bidiContinue at hc
  unfold bidiStep
  cases hF : heapPop s.heap_fwd with
  | none => simp [heapPeek, hF] at hc
  | some pF =>
    cases hB : heapPop s.heap_bwd with
    | none => simp [heapPeek, hF, hB] at hc
    | some pB =>
      obtain ⟨⟨cost_fwd, pos_fwd⟩, restF⟩ := pF
      obtain ⟨⟨cost_bwd, pos_bwd⟩, restB⟩ := pB
      simp only [heapPeek, hF, hB, Option.map_some] at hc
      have hlt : wrapAdd cost_fwd cost_bwd < s.estimate := by simpa using hc
      simp only [hF, hB]
      have hbreak : ¬ (s.estimate ≤ wrapAdd cost_fwd cost_bwd) := by omega
      simp only [hbreak, if_false]
      have hlF := heapPop_length hF
      have hlB := heapPop_length hB
      by_cases hfb : cost_fwd < cost_bwd
      · simp only [hfb, if_true]
        have hm := discoverAux_measure pos_fwd s.dist_bwd (graph.getD pos_fwd [])
          s.dist_fwd restF s.prev_fwd s.estimate s.join_node
        unfold discover_nodes
        cases hr : (discoverAux pos_fwd s.dist_bwd (graph.getD pos_fwd [])
            s.dist_fwd restF s.prev_fwd s.estimate s.join_node).local_join <;>
          simp only [hr] <;> unfold bidiMeasure <;> simp only [] <;> omega
      · simp only [hfb, if_false]
        have hm := discoverAux_measure pos_bwd s.dist_fwd (rev_graph.getD pos_bwd [])
          s.dist_bwd restB s.prev_bwd s.estimate s.join_node
        unfold discover_nodes
        cases hr : (discoverAux pos_bwd s.dist_fwd (rev_graph.getD pos_bwd [])
            s.dist_bwd restB s.prev_bwd s.estimate s.join_node).local_join <;>
          simp only [hr] <;> unfold bidiMeasure <;> simp only [] <;> omega

/-- The bidirectional search loop (lines 55-78), by well-founded recursion on
`bidiMeasure`. -/
def bidiLoop (graph rev_graph : Graph) (s : BidiState) : BidiState :=
  if h : bidiContinue s then bidiLoop graph rev_graph (bidiStep graph rev_graph s)
  else s
termination_by bidiMeasure s
decreasing_by exact bidiStep_measure h

/-- The `reverse_adj_list` function (src/bidirectional_dijkstra.rs, lines
24-32): for every edge `(u → v, w)` of the input, push `(u, w)` onto entry
`v` of a fresh table of empty lists. -/
def reverse_adj_list (adj_list : Graph) : Graph :=
  adj_list.enum.foldl
    (fun acc p =>
      p.2.foldl (fun acc2 e => acc2.set e.1 (acc2.getD e.1 [] ++ [(p.1, e.2)])) acc)
    (List.replicate adj_list.length [])

/-- Model of `Graph::new` (src/graph.rs, lines 7-18): it stores the given
adjacency list and derives the reverse adjacency list with the same double
loop as `reverse_adj_list`. -/
structure GraphStruct where
  adj_list : Graph
  rev_adj_list : Graph
deriving Repr, DecidableEq

/-- Constructor `Graph::new` of src/graph.rs. -/
def GraphStruct.new (adj_list : Graph) : GraphStruct :=
  { adj_list := adj_list
    rev_adj_list :=
      adj_list.enum.foldl
        (fun acc p =>
          p.2.foldl (fun acc2 e => acc2.set e.1 (acc2.getD e.1 [] ++ [(p.1, e.2)])) acc)
        (List.replicate adj_list.length []) }

/-- Fuelled predecessor walk for `reconstruct_path`: follow `prev` pointers
from the meeting point, collecting nodes.  The Rust `while let` has no fuel;
in every state the algorithms reach, the predecessor chains are acyclic and
no longer than the node count, so fuel `prev.length + 1` never runs out and
the model agrees with the Rust loop. -/
def reconstructAux (prev : List (Option Nat)) : Nat → Option Nat → List Nat
  | 0, _ => []
  | _, none => []
  | fuel + 1, some node => node :: reconstructAux prev fuel (prev.getD node none)

/-- The `reconstruct_path` function (src/bidirectional_dijkstra.rs, lines
123-132): walk the predecessor chain from the meeting point and reverse it. -/
def reconstruct_path (meeting_point : Nat) (prev : List (Option Nat)) : List Nat :=
  (reconstructAux prev (prev.length + 1) (some meeting_point)).reverse

/-- Initial loop state of `bidirectional_dijkstra` (lines 40-53). -/
def bidiInit (n start goal : Nat) : BidiState :=
  { dist_fwd := (List.replicate n USIZE_MAX).set start 0
    dist_bwd := (List.replicate n USIZE_MAX).set goal 0
    heap_fwd := [(0, start)]
    heap_bwd := [(0, goal)]
    prev_fwd := List.replicate n none
    prev_bwd := List.replicate n none
    estimate := USIZE_MAX
    join_node := none }

/-- The `bidirectional_dijkstra` function (src/bidirectional_dijkstra.rs,
lines 34-90).  The result is `none` exactly when the Rust call panics: with
`start ≠ goal`, an out-of-range `start` or `goal` hits the index-out-of-bounds
panic at the initial writes `dist_fwd[start] = 0` / `dist_bwd[goal] = 0`
before any search step runs.  There is no bounds check in the source. -/
def bidirectional_dijkstra (graph : Graph) (start goal : Nat) :
    Option (Nat × List Nat) :=
  if start = goal then some (0, [start])
  else if start < graph.length ∧ goal < graph.length then
    let rev_graph := reverse_adj_list graph
    let final := bidiLoop graph rev_graph (bidiInit graph.length start goal)
    some (match final.join_node with
      | some join =>
        let path_fwd := reconstruct_path join final.prev_fwd
        let path_bwd := (reconstruct_path join final.prev_bwd).reverse
        (final.estimate, path_fwd.dropLast ++ path_bwd)
      | none => (USIZE_MAX, []))
  else none

/-- State of the sequential Dijkstra loop (src/standard_dijkstra.rs, lines
29-34). -/
structure SeqState where
  dist : List Nat
  heap : List HeapEntry
  prev : List (Option Nat)
deriving Repr, DecidableEq

/-- Relaxation loop of `sequential_dijkstra` (src/standard_dijkstra.rs,
lines 46-53).  Note that it adds weights to the popped entry's `cost`, not
to `dist[position]`. -/
def seqRelax (position cost : Nat) :
    List (Nat × Nat) → List Nat → List HeapEntry → List (Option Nat) →
    List Nat × List HeapEntry × List (Option Nat)
  | [], dist, heap, prev => (dist, heap, prev)
  | (neighbor, weight) :: rest, dist, heap, prev =>
    let next_cost := satAdd cost weight
    if next_cost < dist.getD neighbor 0 then
      seqRelax position cost rest (dist.set neighbor next_cost)
        ((next_cost, neighbor) :: heap) (prev.set neighbor (some position))
    else
      seqRelax position cost rest dist heap prev

/-- Measure for the sequential loop. -/
def seqMeasure (s : SeqState) : Nat := s.dist.sum + s.heap.length

theorem seqRelax_measure (position cost : Nat) (edges : List (Nat × Nat))
    (dist : List Nat) (heap : List HeapEntry) (prev : List (Option Nat)) :
    (seqRelax position cost edges dist heap prev).1.sum +
      (seqRelax position cost edges dist heap prev).2.1.length ≤
      dist.sum + heap.length := by
  induction edges generalizing dist heap prev with
  | nil => simp [seqRelax]
  | cons e rest ih =>
    obtain ⟨neighbor, weight⟩ := e
    simp only [seqRelax]
    by_cases hlt : satAdd cost weight < dist.getD neighbor 0
    · have hnb : neighbor < dist.length := by
        by_contra hge
        have : dist.getD neighbor 0 = 0 := List.getD_eq_default _ _ (by omega)
        omega
      have hsum := @sum_set_getD dist neighbor (satAdd cost weight) hnb
      simp only [hlt, if_true]
      refine le_trans (ih _ _ _) ?_
      simp only [List.length_cons]
      omega
    · simp only [hlt, if_false]
      exact ih _ _ _

/-- The `while let` loop of `sequential_dijkstra` (src/standard_dijkstra.rs,
lines 36-54), together with its exits: return `(cost, path)` on popping the
goal, skip stale entries, relax otherwise, and return the no-path sentinel
`(usize::MAX, [])` when the heap empties. -/
def seqLoop (graph : Graph) (goal : Nat) (s : SeqState) : Nat × List Nat :=
  match hp : heapPop s.heap with
  | none => (USIZE_MAX, [])
  | some ((cost, position), rest) =>
    if position = goal then (cost, reconstruct_path goal s.prev)
    else if s.dist.getD position 0 < cost then
      seqLoop graph goal { s with heap := rest }
    else
      let r := seqRelax position cost (graph.getD position []) s.dist rest s.prev
      seqLoop graph goal { dist := r.1, heap := r.2.1, prev := r.2.2 }
termination_by seqMeasure s
decreasing_by
· have := heapPop_length hp
  simp only [seqMeasure]
  omega
· have := heapPop_length hp
  have hm := seqRelax_measure position cost (graph.getD position []) s.dist rest s.prev
  simp only [seqMeasure]
  omega

/-- The `sequential_dijkstra` function (src/standard_dijkstra.rs, lines
24-57).  As with `bidirectional_dijkstra`, `none` models the Rust panic:
with `start ≠ goal` and `start` out of range, the write `dist[start] = 0`
panics.  An out-of-range `goal` does not panic there: the search simply
never pops it and returns the sentinel. -/
def sequential_dijkstra (graph : Graph) (start goal : Nat) :
    Option (Nat × List Nat) :=
  if start = goal then some (0, [start])
  else if start < graph.length then
    some (seqLoop graph goal
      { dist := (List.replicate graph.length USIZE_MAX).set start 0
        heap := [(0, start)]
        prev := List.replicate graph.length none })
  else none

/-- Model of `parallel_bidirectional_dijkstra` (src/parallel_bi_dijkstra.rs,
lines 36-178).  The `start == goal` fast path (lines 37-39) runs before any
shared state or thread is created and is modelled directly from the source.
The remainder of the function spawns two racing threads inside
`rayon::scope`; its outcome depends on the thread schedule and is not
representable in this sequential embedding, so it is abstracted as the
explicit parameter `search_rest`, and theorems about the fast path quantify
over every possible remainder. -/
def parallel_bidirectional_dijkstra
    (search_rest : Graph → Nat → Nat → Nat × List Nat)
    (graph : Graph) (start goal : Nat) : Nat × List Nat :=
  if start = goal then (0, [start]) else search_rest graph start goal

/-- Iteration of the loop body, used to state that the well-founded loop is
reached after finitely many body executions. -/
def bidiIter (graph rev_graph : Graph) : Nat → BidiState → BidiState
  | 0, s => s
  | n + 1, s => bidiIter graph rev_graph n (bidiStep graph rev_graph s)

/-- Specification-side cost-annotated reachability: `CostReach g u v c` says
the graph has a directed walk from `u` to `v` whose weights sum to `c`. -/
inductive CostReach (g : Graph) : Nat → Nat → Nat → Prop
  | refl (u : Nat) : CostReach g u u 0
  | tail {u v c : Nat} (nb w : Nat) :
      CostReach g u v c → (nb, w) ∈ g.getD v [] → CostReach g u nb (c + w)

/-- Plain reachability: some directed walk exists. -/
def Reachable (g : Graph) (u v : Nat) : Prop := ∃ c, CostReach g u v c

/-- Specification-side shortest distance: `c` is a walk cost and no walk is
cheaper. -/
def IsShortest (g : Graph) (u v c : Nat) : Prop :=
  CostReach g u v c ∧ ∀ c', CostReach g u v c' → c ≤ c'

/-- A node sequence is a genuine path of total weight `c`: every consecutive
pair is joined by an edge of `g` and the chosen weights sum to `c`. -/
inductive GoodPath (g : Graph) : List Nat → Nat → Prop
  | single (u : Nat) : GoodPath g [u] 0
  | cons {u v : Nat} {rest : List Nat} {c : Nat} (w : Nat) :
      (v, w) ∈ g.getD u [] → GoodPath g (v :: rest) c →
      GoodPath g (u :: v :: rest) (w + c)

/-- All cost-carrying fields of the bidirectional state are `usize` values,
that is, at most `USIZE_MAX`: nothing has wrapped. -/
def SatBound (s : BidiState) : Prop :=
  (∀ x ∈ s.dist_fwd, x ≤ USIZE_MAX) ∧ (∀ x ∈ s.dist_bwd, x ≤ USIZE_MAX) ∧
  (∀ e ∈ s.heap_fwd, (Prod.fst e) ≤ USIZE_MAX) ∧
  (∀ e ∈ s.heap_bwd, (Prod.fst e) ≤ USIZE_MAX) ∧
  s.estimate ≤ USIZE_MAX

/-- Total number of edges of an adjacency-list graph. -/
def totalEdges (g : Graph) : Nat := (g.map List.length).sum

/-- Bookkeeping invariant of the bidirectional state used for the
unreachable-goal analysis: distance tables have one entry per node, heap
entries point at valid nodes, a finite forward (backward) distance witnesses
reachability from `start` (to `goal`), a recorded meeting implies a full
`start`-to-`goal` walk, and the estimate is the untouched sentinel as long
as no meeting was recorded. -/
def ReachInv (g : Graph) (start goal : Nat) (s : BidiState) : Prop :=
  s.dist_fwd.length = g.length ∧ s.dist_bwd.length = g.length ∧
  (∀ e ∈ s.heap_fwd, (Prod.snd e) < g.length) ∧
  (∀ e ∈ s.heap_bwd, (Prod.snd e) < g.length) ∧
  (∀ n, n < g.length → s.dist_fwd.getD n 0 < USIZE_MAX → Reachable g start n) ∧
  (∀ n, n < g.length → s.dist_bwd.getD n 0 < USIZE_MAX → Reachable g n goal) ∧
  (s.estimate < USIZE_MAX → Reachable g start goal) ∧
  (s.join_node.isSome → Reachable g start goal) ∧
  (s.join_node = none → s.estimate = USIZE_MAX)

/-- Row-indexed well-formedness: every edge read through `getD` has an
in-range target and a `usize` weight.  Equivalent to `WellFormed` for the
forward graph and inherited by the derived reverse graph. -/
def WellFormedD (h : Graph) : Prop :=
  ∀ v : Nat, ∀ e ∈ h.getD v [], (Prod.fst e) < h.length ∧ (Prod.snd e) ≤ USIZE_MAX

/-- Full functional invariant of one search side (the forward side over the
input graph from `start`, the backward side over the derived reverse graph
from `goal`, and the whole of `sequential_dijkstra`).  `S` is the ghost list
of settled nodes in settlement order; it exists only in the proof. -/
structure SideInv (h : Graph) (src : Nat) (dist : List Nat)
    (heap : List HeapEntry) (prev : List (Option Nat)) (S : List Nat) :
    Prop where
  hsrclt : src < h.length
  hlen : dist.length = h.length
  hplen : prev.length = h.length
  hmax : ∀ x ∈ dist, x ≤ USIZE_MAX
  hsrc : dist.getD src 0 = 0
  hSbound : ∀ n ∈ S, n < h.length
  hSnodup : S.Nodup
  hSshort : ∀ n ∈ S, IsShortest h src n (dist.getD n 0)
  hSfin : ∀ n ∈ S, dist.getD n 0 < USIZE_MAX
  hSrelax : ∀ n ∈ S, ∀ nb w, (nb, w) ∈ h.getD n [] →
    dist.getD nb 0 ≤ satAdd (dist.getD n 0) w
  hopen : ∀ n, n < h.length → n ∉ S → dist.getD n 0 < USIZE_MAX →
    (dist.getD n 0, n) ∈ heap
  hheap : ∀ e ∈ heap, (Prod.snd e) < h.length ∧ (Prod.fst e) < USIZE_MAX ∧
    dist.getD (Prod.snd e) 0 ≤ (Prod.fst e) ∧
    CostReach h src (Prod.snd e) (Prod.fst e)
  hfin : ∀ n, n < h.length → dist.getD n 0 < USIZE_MAX →
    CostReach h src n (dist.getD n 0)
  hprev : ∀ n p, n < h.length → prev.getD n none = some p →
    p ∈ S ∧ ∃ w, (n, w) ∈ h.getD p [] ∧
      dist.getD n 0 = satAdd (dist.getD p 0) w ∧ dist.getD n 0 < USIZE_MAX
  hprevIdx : ∀ n p, prev.getD n none = some p → n ∈ S → S.indexOf p < S.indexOf n
  hroot : ∀ n, n < h.length → prev.getD n none = none →
    dist.getD n 0 < USIZE_MAX → n = src

/-- Estimate bookkeeping of the bidirectional loop: the estimate is a
`usize`, it is a genuine start-to-goal walk cost when finite, it is at most
every finite meeting sum, the recorded join node realises it exactly, and it
is still the sentinel while no join was recorded. -/
structure EstInv (g : Graph) (start goal : Nat) (distF distB : List Nat)
    (est : Nat) (lj : Option Nat) : Prop where
  hestMax : est ≤ USIZE_MAX
  hestGen : est < USIZE_MAX → CostReach g start goal est
  hestLe : ∀ n, n < g.length → distF.getD n 0 < USIZE_MAX →
    distB.getD n 0 < USIZE_MAX → est ≤ distF.getD n 0 + distB.getD n 0
  hjoin : ∀ j, lj = some j → j < g.length ∧ distF.getD j 0 < USIZE_MAX ∧
    distB.getD j 0 < USIZE_MAX ∧ est = distF.getD j 0 + distB.getD j 0
  hjoinNone : lj = none → est = USIZE_MAX

/-- Combined invariant of the bidirectional loop state. -/
def BidiInv (g : Graph) (start goal : Nat) (s : BidiState) : Prop :=
  ∃ SF SB : List Nat,
    SideInv g start s.dist_fwd s.heap_fwd s.prev_fwd SF ∧
    SideInv (reverse_adj_list g) goal s.dist_bwd s.heap_bwd s.prev_bwd SB ∧
    EstInv g start goal s.dist_fwd s.dist_bwd s.estimate s.join_node

/-!  General helper lemmas about list reads and writes. -/

theorem getD_set_self {α} {l : List α} {i : Nat} (v d : α)
    (h : i < l.length) : (l.set i v).getD i d = v := by
  rw [List.getD_eq_getElem?_getD, List.getElem?_set_self h]
  rfl

theorem getD_set_ne {α} {l : List α} {i j : Nat} (v d : α)
    (h : i ≠ j) : (l.set i v).getD j d = l.getD j d := by
  rw [List.getD_eq_getElem?_getD, List.getElem?_set_ne h,
    ← List.getD_eq_getElem?_getD]

theorem getD_replicate {α} {n i : Nat} (x d : α) (h : i < n) :
    (List.replicate n x).getD i d = x := by
  rw [List.getD_eq_getElem?_getD, List.getElem?_replicate]
  simp [h]

theorem getD_oob {α} {l : List α} {i : Nat} {d : α} (h : l.length ≤ i) :
    l.getD i d = d :=
  List.getD_eq_default _ _ h

/-- The loop body is the identity exactly on states where the guard fails. -/
theorem bidiStep_of_stop {graph rev_graph : Graph} {s : BidiState}
    (h : bidiContinue s = false) : bidiStep graph rev_graph s = s := by
  unfold bidiContinue at h
  unfold bidiStep
  cases hF : heapPop s.heap_fwd with
  | none => rfl
  | some pF =>
    cases hB : heapPop s.heap_bwd with
    | none => rfl
    | some pB =>
      obtain ⟨⟨cf, pf⟩, restF⟩ := pF
      obtain ⟨⟨cb, pb⟩, restB⟩ := pB
      simp only [heapPeek, hF, hB, Option.map_some] at h
      have : ¬ wrapAdd cf cb < s.estimate := by simpa using h
      simp only [hF, hB]
      rw [if_pos (by omega)]

theorem bidiLoop_stop {graph rev_graph : Graph} {s : BidiState}
    (h : bidiContinue s = false) : bidiLoop graph rev_graph s = s := by
  rw [bidiLoop]
  simp [h]

theorem bidiLoop_continue {graph rev_graph : Graph} {s : BidiState}
    (h : bidiContinue s = true) :
    bidiLoop graph rev_graph s = bidiLoop graph rev_graph (bidiStep graph rev_graph s) := by
  rw [bidiLoop]
  simp [h]

/-- Any property preserved by the loop body holds for the loop's result. -/
theorem bidiLoop_inv {graph rev_graph : Graph} (P : BidiState → Prop)
    (hstep : ∀ s, bidiContinue s = true → P s → P (bidiStep graph rev_graph s)) :
    ∀ s, P s → P (bidiLoop graph rev_graph s) := by
  have key : ∀ m s, bidiMeasure s ≤ m → P s → P (bidiLoop graph rev_graph s) := by
    intro m
    induction m with
    | zero =>
      intro s hm hp
      cases hc : bidiContinue s with
      | false => rw [bidiLoop_stop hc]; exact hp
      | true =>
        have := @bidiStep_measure graph rev_graph s hc
        omega
    | succ k ih =>
      intro s hm hp
      cases hc : bidiContinue s with
      | false => rw [bidiLoop_stop hc]; exact hp
      | true =>
        rw [bidiLoop_continue hc]
        have hlt := @bidiStep_measure graph rev_graph s hc
        exact ih _ (by omega) (hstep s hc hp)
  intro s
  exact key (bidiMeasure s) s le_rfl

/-- The well-founded loop is reached by finitely many executions of the loop
body, after which the guard fails. -/
theorem bidiLoop_eq_iter (graph rev_graph : Graph) (s : BidiState) :
    ∃ n, bidiLoop graph rev_graph s = bidiIter graph rev_graph n s ∧
      bidiContinue (bidiIter graph rev_graph n s) = false := by
  have key : ∀ m s, bidiMeasure s ≤ m →
      ∃ n, bidiLoop graph rev_graph s = bidiIter graph rev_graph n s ∧
        bidiContinue (bidiIter graph rev_graph n s) = false := by
    intro m
    induction m with
    | zero =>
      intro s hm
      cases hc : bidiContinue s with
      | false => exact ⟨0, by rw [bidiLoop_stop hc]; rfl, hc⟩
      | true =>
        have := @bidiStep_measure graph rev_graph s hc
        omega
    | succ k ih =>
      intro s hm
      cases hc : bidiContinue s with
      | false => exact ⟨0, by rw [bidiLoop_stop hc]; rfl, hc⟩
      | true =>
        have hlt := @bidiStep_measure graph rev_graph s hc
        obtain ⟨n, h1, h2⟩ := ih (bidiStep graph rev_graph s) (by omega)
        exact ⟨n + 1, by rw [bidiLoop_continue hc]; exact h1, h2⟩
  exact key (bidiMeasure s) s le_rfl

/-!  Characterisation of `reverse_adj_list`. -/

/-- Per-target contribution of one source node's edge list to the reverse
graph. -/
def revContrib (u v : Nat) (es : List (Nat × Nat)) : List (Nat × Nat) :=
  es.filterMap (fun e => if e.1 = v then some (u, e.2) else none)

theorem revInner_length (u : Nat) (es : List (Nat × Nat)) (acc : Graph) :
    (es.foldl (fun acc2 e => acc2.set e.1 (acc2.getD e.1 [] ++ [(u, e.2)])) acc).length
      = acc.length := by
  induction es generalizing acc with
  | nil => rfl
  | cons e rest ih => simp only [List.foldl_cons]; rw [ih, List.length_set]

theorem revInner_getD (u : Nat) (es : List (Nat × Nat)) (acc : Graph) (v : Nat)
    (hv : v < acc.length) :
    (es.foldl (fun acc2 e => acc2.set e.1 (acc2.getD e.1 [] ++ [(u, e.2)])) acc).getD v []
      = acc.getD v [] ++ revContrib u v es := by
  induction es generalizing acc with
  | nil => simp [revContrib]
  | cons e rest ih =>
    obtain ⟨a, b⟩ := e
    simp only [List.foldl_cons]
    by_cases hav : a = v
    · subst hav
      rw [ih _ (by rw [List.length_set]; exact hv)]
      rw [getD_set_self _ _ hv]
      simp [revContrib, List.filterMap_cons]
    · rw [ih _ (by rw [List.length_set]; exact hv)]
      rw [getD_set_ne _ _ hav]
      simp [revContrib, List.filterMap_cons, hav]

theorem revOuter_length (L : List (Nat × List (Nat × Nat))) (acc : Graph) :
    (L.foldl (fun acc p =>
        p.2.foldl (fun acc2 e => acc2.set e.1 (acc2.getD e.1 [] ++ [(p.1, e.2)])) acc)
      acc).length = acc.length := by
  induction L generalizing acc with
  | nil => rfl
  | cons p rest ih => simp only [List.foldl_cons]; rw [ih, revInner_length]

theorem revOuter_getD (L : List (Nat × List (Nat × Nat))) (acc : Graph) (v : Nat)
    (hv : v < acc.length) :
    (L.foldl (fun acc p =>
        p.2.foldl (fun acc2 e => acc2.set e.1 (acc2.getD e.1 [] ++ [(p.1, e.2)])) acc)
      acc).getD v []
      = acc.getD v [] ++ L.flatMap (fun p => revContrib p.1 v p.2) := by
  induction L generalizing acc with
  | nil => simp
  | cons p rest ih =>
    simp only [List.foldl_cons, List.flatMap_cons]
    rw [ih _ (by rw [revInner_length]; exact hv), revInner_getD _ _ _ _ hv,
      List.append_assoc]

theorem reverse_adj_list_length (g : Graph) :
    (reverse_adj_list g).length = g.length := by
  unfold reverse_adj_list
  rw [revOuter_length, List.length_replicate]

theorem reverse_adj_list_getD (g : Graph) (v : Nat) (hv : v < g.length) :
    (reverse_adj_list g).getD v [] = g.enum.flatMap (fun p => revContrib p.1 v p.2) := by
  unfold reverse_adj_list
  rw [revOuter_getD _ _ _ (by rw [List.length_replicate]; exact hv)]
  rw [getD_replicate _ _ hv]
  rfl

theorem count_revContrib (u v w i : Nat) (es : List (Nat × Nat)) :
    (revContrib i v es).count (u, w) = if i = u then es.count (v, w) else 0 := by
  induction es with
  | nil => simp [revContrib]
  | cons e rest ih =>
    obtain ⟨a, b⟩ := e
    by_cases hav : a = v
    · subst hav
      have hstep : revContrib i a ((a, b) :: rest) = (i, b) :: revContrib i a rest := by
        simp [revContrib, List.filterMap_cons]
      rw [hstep, List.count_cons, List.count_cons, ih]
      by_cases hiu : i = u <;> by_cases hbw : b = w <;>
        simp [hiu, hbw, Prod.ext_iff]
    · have hstep : revContrib i v ((a, b) :: rest) = revContrib i v rest := by
        simp [revContrib, List.filterMap_cons, hav]
      rw [hstep, List.count_cons, ih]
      by_cases hiu : i = u <;> simp [hiu, hav, Prod.ext_iff]

theorem count_flatMap {α β} [BEq β] (b : β) (L : List α) (f : α → List β) :
    (L.flatMap f).count b = (L.map (fun x => (f x).count b)).sum := by
  induction L with
  | nil => rfl
  | cons x rest ih => simp [List.flatMap_cons, List.count_append, ih]

theorem sum_enumFrom_single (u : Nat) (f : List (Nat × Nat) → Nat) :
    ∀ (k : Nat) (g : Graph),
    ((List.enumFrom k g).map (fun p => if p.1 = u then f p.2 else 0)).sum
      = if k ≤ u ∧ u < k + g.length then f (g.getD (u - k) []) else 0 := by
  intro k g
  induction g generalizing k with
  | nil => simp only [List.enumFrom_nil, List.map_nil, List.sum_nil, List.length_nil]
           rw [if_neg (by omega)]
  | cons es rest ih =>
    simp only [List.enumFrom_cons, List.map_cons, List.sum_cons, ih (k + 1)]
    by_cases hk : k = u
    · rw [if_pos hk, if_neg (show ¬ (k + 1 ≤ u ∧ u < k + 1 + rest.length) by omega),
        if_pos (show k ≤ u ∧ u < k + (es :: rest).length by
          simp only [List.length_cons]; omega)]
      have hz : u - k = 0 := by omega
      rw [hz]
      simp
    · rw [if_neg hk]
      by_cases hrange : k + 1 ≤ u ∧ u < k + 1 + rest.length
      · rw [if_pos hrange, if_pos (show k ≤ u ∧ u < k + (es :: rest).length by
          simp only [List.length_cons]; omega)]
        have hik : u - k = (u - (k + 1)) + 1 := by omega
        rw [hik, List.getD_cons_succ, Nat.zero_add]
      · rw [if_neg hrange, if_neg (show ¬ (k ≤ u ∧ u < k + (es :: rest).length) by
          simp only [List.length_cons]; omega)]

/-- Multiplicity characterisation of the reverse graph: for a well-formed
graph, the reversed edge (v → u, w) occurs in the reverse adjacency list
exactly as often as (u → v, w) occurs in the forward one. -/
theorem reverse_adj_list_count (g : Graph) (hwf : WellFormed g) (u v w : Nat) :
    ((reverse_adj_list g).getD v []).count (u, w) = (g.getD u []).count (v, w) := by
  by_cases hv : v < g.length
  · rw [reverse_adj_list_getD g v hv]
    rw [count_flatMap]
    have hmap : (g.enum.map (fun p => (revContrib p.1 v p.2).count (u, w)))
        = g.enum.map (fun p => if p.1 = u then p.2.count (v, w) else 0) := by
      apply List.map_congr_left
      intro p _
      exact count_revContrib u v w p.1 p.2
    rw [hmap]
    have henum : g.enum = List.enumFrom 0 g := rfl
    rw [henum, sum_enumFrom_single u (fun es => es.count (v, w)) 0 g]
    by_cases hu : u < g.length
    · simp [hu]
    · have h1 : ¬ (0 ≤ u ∧ u < 0 + g.length) := by omega
      rw [if_neg h1, getD_oob (by omega)]
      rfl
  · have hrev : ((reverse_adj_list g).getD v []) = [] := by
      apply getD_oob
      rw [reverse_adj_list_length]
      omega
    rw [hrev]
    by_cases hu : u < g.length
    · have hmem : (v, w) ∉ g.getD u [] := by
        intro hmem
        have hin : g.getD u [] ∈ g := by
          rw [List.getD_eq_getElem?_getD]
          have : g[u]? = some g[u] := List.getElem?_eq_getElem hu
          rw [this]
          exact List.getElem_mem hu
        have := (hwf _ hin _ hmem).1
        simp at this
        omega
      rw [List.getD_eq_getElem?_getD] at hmem
      simp [List.count_eq_zero.mpr hmem]
    · rw [@getD_oob _ g u [] (by omega)]
      rfl

theorem length_revContrib (i v : Nat) (es : List (Nat × Nat)) :
    (revContrib i v es).length = es.countP (fun e => e.1 == v) := by
  induction es with
  | nil => rfl
  | cons e rest ih =>
    obtain ⟨a, b⟩ := e
    by_cases hav : a = v
    · subst hav
      have hstep : revContrib i a ((a, b) :: rest) = (i, b) :: revContrib i a rest := by
        simp [revContrib, List.filterMap_cons]
      rw [hstep]
      simp [List.countP_cons, ih]
    · have hstep : revContrib i v ((a, b) :: rest) = revContrib i v rest := by
        simp [revContrib, List.filterMap_cons, hav]
      rw [hstep]
      simp [List.countP_cons, hav, ih]

theorem sum_countP_eq_length (n : Nat) (es : List (Nat × Nat))
    (hb : ∀ e ∈ es, (Prod.fst e) < n) :
    ((Finset.range n).sum fun v => es.countP (fun e => e.1 == v)) = es.length := by
  induction es with
  | nil => simp
  | cons e rest ih =>
    have hrest := ih (fun x hx => hb x (List.mem_cons_of_mem _ hx))
    have he : (Prod.fst e) < n := hb e (List.mem_cons_self e rest)
    simp only [List.countP_cons]
    rw [Finset.sum_add_distrib, hrest]
    have : ((Finset.range n).sum fun v => if (e.1 == v) = true then 1 else 0) = 1 := by
      have : ∀ v, (if (e.1 == v) = true then 1 else 0) = if e.1 = v then 1 else 0 := by
        intro v
        by_cases h : e.1 = v <;> simp [h]
      simp only [this]
      rw [Finset.sum_ite_eq (Finset.range n) e.1 (fun _ => 1)]
      simp [he]
    rw [this]
    simp

theorem totalEdges_eq_sum_getD (l : Graph) :
    totalEdges l = (Finset.range l.length).sum fun i => (l.getD i []).length := by
  induction l with
  | nil => simp [totalEdges]
  | cons es rest ih =>
    simp only [totalEdges, List.map_cons, List.sum_cons, List.length_cons]
    rw [Finset.sum_range_succ']
    have h0 : ((es :: rest).getD 0 []).length = es.length := rfl
    have hsucc : ∀ i, ((es :: rest).getD (i + 1) []).length = (rest.getD i []).length := by
      intro i; rfl
    simp only [h0, hsucc]
    rw [← ih]
    simp [totalEdges]
    omega

theorem sum_flat_lengths (n : Nat) (L : List (Nat × List (Nat × Nat)))
    (hL : ∀ p ∈ L, ∀ e ∈ p.2, (Prod.fst e) < n) :
    ((Finset.range n).sum fun v => (L.flatMap (fun p => revContrib p.1 v p.2)).length)
      = (L.map (fun p => p.2.length)).sum := by
  induction L with
  | nil => simp
  | cons p rest ih =>
    simp only [List.flatMap_cons, List.length_append, List.map_cons, List.sum_cons]
    rw [Finset.sum_add_distrib]
    have h1 : ((Finset.range n).sum fun v => (revContrib p.1 v p.2).length)
        = p.2.length := by
      have hc : ∀ v, (revContrib p.1 v p.2).length = p.2.countP (fun e => e.1 == v) :=
        fun v => length_revContrib p.1 v p.2
      simp only [hc]
      exact sum_countP_eq_length n p.2 (hL p (List.mem_cons_self p rest))
    rw [h1, ih (fun q hq => hL q (List.mem_cons_of_mem _ hq))]

/-- For a well-formed graph, the reverse graph has the same total edge
count. -/
theorem totalEdges_reverse (g : Graph) (hwf : WellFormed g) :
    totalEdges (reverse_adj_list g) = totalEdges g := by
  rw [totalEdges_eq_sum_getD, reverse_adj_list_length]
  have hrow : ((Finset.range g.length).sum fun v => ((reverse_adj_list g).getD v []).length)
      = (Finset.range g.length).sum fun v =>
          (g.enum.flatMap (fun p => revContrib p.1 v p.2)).length := by
    apply Finset.sum_congr rfl
    intro v hv
    rw [reverse_adj_list_getD g v (Finset.mem_range.mp hv)]
  rw [hrow]
  have hL : ∀ p ∈ g.enum, ∀ e ∈ p.2, (Prod.fst e) < g.length := by
    intro p hp e he
    have hsnd : p.2 ∈ g := by
      have : p.2 ∈ g.enum.map Prod.snd := List.mem_map_of_mem Prod.snd hp
      rwa [List.enum_map_snd] at this
    exact (hwf _ hsnd _ he).1
  rw [sum_flat_lengths g.length g.enum hL]
  have : g.enum.map (fun p => p.2.length) = g.map List.length := by
    rw [show (fun p : Nat × List (Nat × Nat) => p.2.length)
        = List.length ∘ Prod.snd from rfl]
    rw [← List.map_map, List.enum_map_snd]
  rw [this]
  rfl

/-!  Further heap lemmas: the pop is a permutation and returns a minimum. -/

theorem heapPop_perm {h : List HeapEntry} {e : HeapEntry} {rest : List HeapEntry}
    (hp : heapPop h = some (e, rest)) : h.Perm (e :: rest) := by
  induction h generalizing e rest with
  | nil => simp [heapPop] at hp
  | cons x xs ih =>
    simp only [heapPop] at hp
    cases hxs : heapPop xs with
    | none =>
      rw [hxs] at hp
      have hnil : xs = [] := heapPop_eq_none.mp hxs
      simp only [Option.some_inj, Prod.mk.injEq] at hp
      subst hnil
      rw [← hp.1, ← hp.2]
    | some br =>
      obtain ⟨b, rest0⟩ := br
      rw [hxs] at hp
      by_cases hb : popsBefore b x
      · simp only [hb, if_true, Option.some_inj, Prod.mk.injEq] at hp
        rw [← hp.1, ← hp.2]
        exact List.Perm.trans (List.Perm.cons x (ih hxs)) (List.Perm.swap b x rest0)
      · simp [hb] at hp
        rw [← hp.1, ← hp.2]

theorem heapPop_mem_rest {h : List HeapEntry} {e x : HeapEntry}
    {rest : List HeapEntry} (hp : heapPop h = some (e, rest)) (hx : x ∈ rest) :
    x ∈ h :=
  (heapPop_perm hp).mem_iff.mpr (List.mem_cons_of_mem _ hx)

theorem heapPop_mem {h : List HeapEntry} {e : HeapEntry} {rest : List HeapEntry}
    (hp : heapPop h = some (e, rest)) : e ∈ h :=
  (heapPop_perm hp).mem_iff.mpr (List.mem_cons_self e rest)

theorem popsBefore_le {a b : HeapEntry} (hab : popsBefore a b = true) :
    a.1 ≤ b.1 := by
  unfold popsBefore at hab
  simp only [Bool.or_eq_true, Bool.and_eq_true, decide_eq_true_eq, beq_iff_eq] at hab
  omega

theorem popsBefore_not {a b : HeapEntry} (hab : ¬ popsBefore a b = true) :
    b.1 ≤ a.1 := by
  unfold popsBefore at hab
  simp only [Bool.or_eq_true, Bool.and_eq_true, decide_eq_true_eq, beq_iff_eq,
    not_or] at hab
  have h1 := hab.1
  omega

theorem heapPop_min {h : List HeapEntry} {e : HeapEntry} {rest : List HeapEntry}
    (hp : heapPop h = some (e, rest)) : ∀ x ∈ h, e.1 ≤ x.1 := by
  induction h generalizing e rest with
  | nil => simp [heapPop] at hp
  | cons x xs ih =>
    simp only [heapPop] at hp
    cases hxs : heapPop xs with
    | none =>
      rw [hxs] at hp
      have hnil : xs = [] := heapPop_eq_none.mp hxs
      simp only [Option.some_inj, Prod.mk.injEq] at hp
      subst hnil
      intro y hy
      simp only [List.mem_singleton] at hy
      rw [← hp.1, hy]
    | some br =>
      obtain ⟨b, rest0⟩ := br
      rw [hxs] at hp
      by_cases hb : popsBefore b x
      · simp only [hb, if_true, Option.some_inj, Prod.mk.injEq] at hp
        intro y hy
        rcases List.mem_cons.mp hy with hy | hy
        · rw [← hp.1, hy]; exact popsBefore_le hb
        · rw [← hp.1]; exact ih hxs y hy
      · simp [hb] at hp
        intro y hy
        rcases List.mem_cons.mp hy with hy | hy
        · rw [← hp.1, hy]
        · rw [← hp.1]
          exact le_trans (popsBefore_not hb) (ih hxs y hy)

theorem satAdd_le_max (a b : Nat) : satAdd a b ≤ USIZE_MAX := min_le_right _ _

theorem satAdd_le_add (a b : Nat) : satAdd a b ≤ a + b := min_le_left _ _

theorem le_satAdd_left {a b : Nat} (ha : a ≤ USIZE_MAX) : a ≤ satAdd a b := by
  unfold satAdd
  omega

theorem satAdd_lt_max {a b : Nat} (h : satAdd a b < USIZE_MAX) : a + b < USIZE_MAX := by
  unfold satAdd at h
  omega

theorem satAdd_eq_add {a b : Nat} (h : a + b < USIZE_MAX) : satAdd a b = a + b := by
  unfold satAdd
  omega

/-!  Saturation invariant: every cost-carrying field stays a usize value. -/

theorem discoverAux_satBound (node : Nat) (other : List Nat)
    (edges : List (Nat × Nat)) (dist : List Nat) (heap : List HeapEntry)
    (prev : List (Option Nat)) (est : Nat) (lj : Option Nat)
    (hd : ∀ x ∈ dist, x ≤ USIZE_MAX) (hh : ∀ e ∈ heap, (Prod.fst e) ≤ USIZE_MAX)
    (he : est ≤ USIZE_MAX) :
    (∀ x ∈ (discoverAux node other edges dist heap prev est lj).dist, x ≤ USIZE_MAX) ∧
    (∀ e ∈ (discoverAux node other edges dist heap prev est lj).heap,
      (Prod.fst e) ≤ USIZE_MAX) ∧
    (discoverAux node other edges dist heap prev est lj).estimate ≤ USIZE_MAX := by
  induction edges generalizing dist heap prev est lj with
  | nil => exact ⟨hd, hh, he⟩
  | cons e rest ih =>
    obtain ⟨neighbor, weight⟩ := e
    simp only [discoverAux]
    apply ih
    · intro x hx
      by_cases hlt : satAdd (dist.getD node 0) weight < dist.getD neighbor 0
      · simp only [hlt, if_true] at hx
        rcases List.mem_or_eq_of_mem_set hx with hx | hx
        · exact hd x hx
        · rw [hx]; exact satAdd_le_max _ _
      · simp only [hlt, if_false] at hx
        exact hd x hx
    · intro e he2
      by_cases hlt : satAdd (dist.getD node 0) weight < dist.getD neighbor 0
      · simp only [hlt, if_true] at he2
        rcases List.mem_cons.mp he2 with he2 | he2
        · rw [he2]; exact satAdd_le_max _ _
        · exact hh e he2
      · simp only [hlt, if_false] at he2
        exact hh e he2
    · by_cases hcand : other.getD neighbor 0 ≠ USIZE_MAX ∧
          satAdd (satAdd (dist.getD node 0) weight) (other.getD neighbor 0) < est
      · rw [if_pos hcand]
        exact satAdd_le_max _ _
      · rw [if_neg hcand]
        exact he

theorem bidiStep_satBound (graph rev_graph : Graph) (s : BidiState)
    (hs : SatBound s) : SatBound (bidiStep graph rev_graph s) := by
  obtain ⟨hdF, hdB, hhF, hhB, he⟩ := hs
  unfold bidiStep
  cases hF : heapPop s.heap_fwd with
  | none => exact ⟨hdF, hdB, hhF, hhB, he⟩
  | some pF =>
    cases hB : heapPop s.heap_bwd with
    | none => exact ⟨hdF, hdB, hhF, hhB, he⟩
    | some pB =>
      obtain ⟨⟨cf, pf⟩, restF⟩ := pF
      obtain ⟨⟨cb, pb⟩, restB⟩ := pB
      by_cases hbrk : s.estimate ≤ wrapAdd cf cb
      · simp only [hbrk, if_true]
        exact ⟨hdF, hdB, hhF, hhB, he⟩
      · simp only [hbrk, if_false]
        by_cases hfb : cf < cb
        · simp only [hfb, if_true]
          have hrF : ∀ e ∈ restF, (Prod.fst e) ≤ USIZE_MAX :=
            fun e he2 => hhF e (heapPop_mem_rest hF he2)
          have hb := discoverAux_satBound pf s.dist_bwd (graph.getD pf [])
            s.dist_fwd restF s.prev_fwd s.estimate s.join_node hdF hrF he
          unfold discover_nodes
          cases hr : (discoverAux pf s.dist_bwd (graph.getD pf [])
              s.dist_fwd restF s.prev_fwd s.estimate s.join_node).local_join with
          | some j =>
            simp only [hr]
            exact ⟨hb.1, hdB, hb.2.1, hhB, hb.2.2⟩
          | none =>
            simp only [hr]
            exact ⟨hb.1, hdB, hb.2.1, hhB, he⟩
        · simp only [hfb, if_false]
          have hrB : ∀ e ∈ restB, (Prod.fst e) ≤ USIZE_MAX :=
            fun e he2 => hhB e (heapPop_mem_rest hB he2)
          have hb := discoverAux_satBound pb s.dist_fwd (rev_graph.getD pb [])
            s.dist_bwd restB s.prev_bwd s.estimate s.join_node hdB hrB he
          unfold discover_nodes
          cases hr : (discoverAux pb s.dist_fwd (rev_graph.getD pb [])
              s.dist_bwd restB s.prev_bwd s.estimate s.join_node).local_join with
          | some j =>
            simp only [hr]
            exact ⟨hdF, hb.1, hhF, hb.2.1, hb.2.2⟩
          | none =>
            simp only [hr]
            exact ⟨hdF, hb.1, hhF, hb.2.1, he⟩

/-!  Claim theorems. -/

/-- C9: for every graph and every node `start`, all three shortest-path entry
points (`bidirectional_dijkstra`, `sequential_dijkstra`, and
`parallel_bidirectional_dijkstra` for every possible concurrent remainder)
return cost 0 and the single-element path `[start]` when `start = goal`,
immediately by the fast path, without running any search. -/
theorem claim_C9 (graph : Graph) (start : Nat) :
    bidirectional_dijkstra graph start start = some (0, [start]) ∧
    sequential_dijkstra graph start start = some (0, [start]) ∧
    ∀ search_rest,
      parallel_bidirectional_dijkstra search_rest graph start start = (0, [start]) := by
  refine ⟨?_, ?_, fun search_rest => ?_⟩ <;>
    simp [bidirectional_dijkstra, sequential_dijkstra, parallel_bidirectional_dijkstra]

/-- C10: the `start == goal` fast path runs before the (absent) bounds
handling, so even an out-of-range index `start ≥ graph.len()` with
`start == goal` succeeds with cost 0 and path `[start]` in all three entry
points instead of being rejected. -/
theorem claim_C10 (graph : Graph) (start : Nat) (hoob : graph.length ≤ start) :
    bidirectional_dijkstra graph start start = some (0, [start]) ∧
    sequential_dijkstra graph start start = some (0, [start]) ∧
    ∀ search_rest,
      parallel_bidirectional_dijkstra search_rest graph start start = (0, [start]) := by
  refine ⟨?_, ?_, fun search_rest => ?_⟩ <;>
    simp [bidirectional_dijkstra, sequential_dijkstra, parallel_bidirectional_dijkstra]

theorem claim_C10_witness :
    ([[(1, 2)], []] : Graph).length ≤ 7 ∧
    bidirectional_dijkstra [[(1, 2)], []] 7 7 = some (0, [7]) ∧
    sequential_dijkstra [[(1, 2)], []] 7 7 = some (0, [7]) :=
  ⟨by decide, (claim_C10 [[(1, 2)], []] 7 (by decide)).1,
    (claim_C10 [[(1, 2)], []] 7 (by decide)).2.1⟩

/-- C7 counterexample: calling `bidirectional_dijkstra` on a 1-node graph
with the out-of-range start index 1 is not rejected with a typed result.
The Rust function's return type `(usize, Vec<usize>)` has no failure
variant at all; the call reaches `dist_fwd[start] = 0` and panics with an
index-out-of-bounds, which the embedding models as `none`.  So the claim's
"reported to the caller as a typed result rather than a crash" is false. -/
theorem claim_C7_counterexample : bidirectional_dijkstra [[]] 1 0 = none := by
  simp [bidirectional_dijkstra]

/-- C7 (amended): a call with `start ≠ goal` and `start` or `goal` out of the
graph's node bounds is NOT rejected: there is no bounds check in the source,
and before any search step runs, the initial distance-table write panics
with an index-out-of-bounds (modelled as the `none` result) instead of
returning any typed value to the caller. -/
theorem claim_C7 (graph : Graph) (start goal : Nat) (hne : start ≠ goal)
    (hoob : graph.length ≤ start ∨ graph.length ≤ goal) :
    bidirectional_dijkstra graph start goal = none := by
  unfold bidirectional_dijkstra
  rw [if_neg hne, if_neg (by omega)]

theorem claim_C7_witness :
    (2 : Nat) ≠ 0 ∧ ([[(1, 5)], []] : Graph).length ≤ 2 ∧
    bidirectional_dijkstra [[(1, 5)], []] 2 0 = none :=
  ⟨by decide, by decide, claim_C7 [[(1, 5)], []] 2 0 (by decide) (Or.inl (by decide))⟩

/-- C3 counterexample: the claim says the coordinator chooses the FORWARD
frontier when the two frontier minima are equal.  On the 2-node graph with
one edge 0 → 1 (weight 1), searching 0 → 1, both frontier minima are
(cost 0) at the first iteration, yet the step leaves the forward heap
untouched and advances the backward side (its distance table changes). -/
theorem claim_C3_counterexample :
    heapPeek (bidiInit 2 0 1).heap_fwd = some (0, 0) ∧
    heapPeek (bidiInit 2 0 1).heap_bwd = some (0, 1) ∧
    (bidiStep [[(1, 1)], []] (reverse_adj_list [[(1, 1)], []])
        (bidiInit 2 0 1)).heap_fwd = (bidiInit 2 0 1).heap_fwd ∧
    (bidiStep [[(1, 1)], []] (reverse_adj_list [[(1, 1)], []])
        (bidiInit 2 0 1)).dist_bwd ≠ (bidiInit 2 0 1).dist_bwd := by
  decide

/-- C3 (amended): on every iteration that passes the termination test, the
coordinator advances the forward frontier exactly when its minimum is
STRICTLY smaller than the backward minimum, and the backward frontier
otherwise — so equal minima go to the BACKWARD side — and the popped entry
is always relaxed through `discover_nodes`: there is no stale-entry check
of the popped cost against the recorded distance (no hypothesis comparing
`cf` with the recorded distance of `pf` is needed below). -/
theorem claim_C3 (graph rev_graph : Graph) (s : BidiState)
    (cf pf cb pb : Nat) (restF restB : List HeapEntry)
    (hF : heapPop s.heap_fwd = some ((cf, pf), restF))
    (hB : heapPop s.heap_bwd = some ((cb, pb), restB))
    (hgo : wrapAdd cf cb < s.estimate) :
    (cf < cb →
      (bidiStep graph rev_graph s).dist_fwd =
        (discover_nodes (graph.getD pf []) pf s.dist_fwd s.dist_bwd restF
          s.prev_fwd s.estimate s.join_node).dist ∧
      (bidiStep graph rev_graph s).heap_fwd =
        (discover_nodes (graph.getD pf []) pf s.dist_fwd s.dist_bwd restF
          s.prev_fwd s.estimate s.join_node).heap ∧
      (bidiStep graph rev_graph s).heap_bwd = s.heap_bwd ∧
      (bidiStep graph rev_graph s).dist_bwd = s.dist_bwd) ∧
    (cb ≤ cf →
      (bidiStep graph rev_graph s).dist_bwd =
        (discover_nodes (rev_graph.getD pb []) pb s.dist_bwd s.dist_fwd restB
          s.prev_bwd s.estimate s.join_node).dist ∧
      (bidiStep graph rev_graph s).heap_bwd =
        (discover_nodes (rev_graph.getD pb []) pb s.dist_bwd s.dist_fwd restB
          s.prev_bwd s.estimate s.join_node).heap ∧
      (bidiStep graph rev_graph s).heap_fwd = s.heap_fwd ∧
      (bidiStep graph rev_graph s).dist_fwd = s.dist_fwd) := by
  unfold bidiStep
  simp only [hF, hB]
  rw [if_neg (by omega : ¬ s.estimate ≤ wrapAdd cf cb)]
  constructor
  · intro hlt
    rw [if_pos hlt]
    cases hr : (discover_nodes (graph.getD pf []) pf s.dist_fwd s.dist_bwd restF
        s.prev_fwd s.estimate s.join_node).local_join <;>
      simp [hr]
  · intro hle
    rw [if_neg (by omega : ¬ cf < cb)]
    cases hr : (discover_nodes (rev_graph.getD pb []) pb s.dist_bwd s.dist_fwd restB
        s.prev_bwd s.estimate s.join_node).local_join <;>
      simp [hr]

theorem claim_C3_witness :
    (bidiStep [[(1, 1)], []] [[], [(0, 1)]] (bidiInit 2 0 1)).dist_bwd =
      (discover_nodes [(0, 1)] 1 (bidiInit 2 0 1).dist_bwd
        (bidiInit 2 0 1).dist_fwd [] (bidiInit 2 0 1).prev_bwd
        (bidiInit 2 0 1).estimate (bidiInit 2 0 1).join_node).dist ∧
    (bidiStep [[(1, 1)], []] [[], [(0, 1)]] (bidiInit 2 0 1)).heap_fwd =
      (bidiInit 2 0 1).heap_fwd := by
  have h := (claim_C3 [[(1, 1)], []] [[], [(0, 1)]] (bidiInit 2 0 1)
    0 0 0 1 [] [] (by decide) (by decide) (by decide)).2 (by decide)
  exact ⟨h.1, h.2.2.1⟩

/-- C4 counterexample: the claim says the loop "stops as soon as the sum of
the two frontier minima reaches best_total_cost".  With two edges of weight
2^63 (0 → 1 and 2 → 3, searching 0 → 3), after two iterations both frontier
minima are 2^63, so their sum 2^64 has reached the estimate
(usize::MAX = 2^64 − 1); but line 61 computes the wrapping sum
(2^63 + 2^63) mod 2^64 = 0, so the guard still holds and the loop performs
another iteration instead of stopping. -/
theorem claim_C4_counterexample :
    heapPeek ((bidiIter [[(1, 2 ^ 63)], [], [(3, 2 ^ 63)], []]
      (reverse_adj_list [[(1, 2 ^ 63)], [], [(3, 2 ^ 63)], []]) 2
      (bidiInit 4 0 3))).heap_fwd = some (2 ^ 63, 1) ∧
    heapPeek ((bidiIter [[(1, 2 ^ 63)], [], [(3, 2 ^ 63)], []]
      (reverse_adj_list [[(1, 2 ^ 63)], [], [(3, 2 ^ 63)], []]) 2
      (bidiInit 4 0 3))).heap_bwd = some (2 ^ 63, 2) ∧
    (bidiIter [[(1, 2 ^ 63)], [], [(3, 2 ^ 63)], []]
      (reverse_adj_list [[(1, 2 ^ 63)], [], [(3, 2 ^ 63)], []]) 2
      (bidiInit 4 0 3)).estimate ≤ 2 ^ 63 + 2 ^ 63 ∧
    bidiContinue (bidiIter [[(1, 2 ^ 63)], [], [(3, 2 ^ 63)], []]
      (reverse_adj_list [[(1, 2 ^ 63)], [], [(3, 2 ^ 63)], []]) 2
      (bidiInit 4 0 3)) = true ∧
    bidiStep [[(1, 2 ^ 63)], [], [(3, 2 ^ 63)], []]
      (reverse_adj_list [[(1, 2 ^ 63)], [], [(3, 2 ^ 63)], []])
      (bidiIter [[(1, 2 ^ 63)], [], [(3, 2 ^ 63)], []]
        (reverse_adj_list [[(1, 2 ^ 63)], [], [(3, 2 ^ 63)], []]) 2
        (bidiInit 4 0 3)) ≠
      bidiIter [[(1, 2 ^ 63)], [], [(3, 2 ^ 63)], []]
        (reverse_adj_list [[(1, 2 ^ 63)], [], [(3, 2 ^ 63)], []]) 2
        (bidiInit 4 0 3) := by
  decide

/-- C4 (amended): the bidirectional loop always terminates — it equals a
finite iteration of the body after which the guard fails; the guard fails
exactly when a frontier is empty or the WRAPPED (mod 2^64) sum of the two
frontier minima has reached `best_total_cost` (for sums below 2^64 this is
the plain sum, a sum that overflows can wrap and delay the stop); an empty
frontier makes the loop exit immediately; and if the loop ends with no
meeting node the function returns the no-path sentinel `(usize::MAX, [])`. -/
theorem claim_C4 :
    (∀ graph rev_graph s, ∃ n,
      bidiLoop graph rev_graph s = bidiIter graph rev_graph n s ∧
      bidiContinue (bidiIter graph rev_graph n s) = false) ∧
    (∀ s : BidiState, bidiContinue s = false ↔
      (heapPeek s.heap_fwd = none ∨ heapPeek s.heap_bwd = none ∨
        ∃ cf pf cb pb, heapPeek s.heap_fwd = some (cf, pf) ∧
          heapPeek s.heap_bwd = some (cb, pb) ∧ s.estimate ≤ wrapAdd cf cb)) ∧
    (∀ graph rev_graph s,
      (heapPeek s.heap_fwd = none ∨ heapPeek s.heap_bwd = none) →
      bidiLoop graph rev_graph s = s) ∧
    (∀ graph start goal, start ≠ goal →
      start < graph.length → goal < graph.length →
      (bidiLoop graph (reverse_adj_list graph)
        (bidiInit graph.length start goal)).join_node = none →
      bidirectional_dijkstra graph start goal = some (USIZE_MAX, [])) := by
  refine ⟨bidiLoop_eq_iter, ?_, ?_, ?_⟩
  · intro s
    unfold bidiContinue
    cases hF : heapPeek s.heap_fwd with
    | none => simp [hF]
    | some pF =>
      cases hB : heapPeek s.heap_bwd with
      | none => simp [hF, hB]
      | some pB =>
        obtain ⟨cf, pf⟩ := pF
        obtain ⟨cb, pb⟩ := pB
        simp only [hF, hB]
        constructor
        · intro h
          refine Or.inr (Or.inr ⟨cf, pf, cb, pb, rfl, rfl, ?_⟩)
          simpa using h
        · intro h
          rcases h with h | h | ⟨cf2, pf2, cb2, pb2, h1, h2, h3⟩
          · simp at h
          · simp at h
          · simp only [Option.some_inj, Prod.mk.injEq] at h1 h2
            obtain ⟨hc1, hp1⟩ := h1
            obtain ⟨hc2, hp2⟩ := h2
            subst hc1
            subst hc2
            simp only [decide_eq_false_iff_not, not_lt]
            omega
  · intro graph rev_graph s hempty
    apply bidiLoop_stop
    unfold bidiContinue
    rcases hempty with h | h
    · rw [h]
    · rw [h]
      cases heapPeek s.heap_fwd <;> rfl
  · intro graph start goal hne h1 h2 hjoin
    unfold bidirectional_dijkstra
    rw [if_neg hne, if_pos ⟨h1, h2⟩]
    simp only [hjoin]

theorem claim_C4_witness :
    bidiLoop [[(1, 4)], []] [[], [(0, 4)]]
      { dist_fwd := [0, 4], dist_bwd := [4, 0], heap_fwd := [],
        heap_bwd := [(4, 0)], prev_fwd := [none, some 0],
        prev_bwd := [some 1, none], estimate := 8, join_node := some 1 } =
      { dist_fwd := [0, 4], dist_bwd := [4, 0], heap_fwd := [],
        heap_bwd := [(4, 0)], prev_fwd := [none, some 0],
        prev_bwd := [some 1, none], estimate := 8, join_node := some 1 } :=
  claim_C4.2.2.1 [[(1, 4)], []] [[], [(0, 4)]] _ (Or.inl (by decide))

/-- C5 counterexample: the claim says ALL cost accumulation and
best-total-estimate computation in the search uses saturating arithmetic so
that no comparison can see a wrapped value.  At the state reached after two
iterations on the graph with edges 0 → 1 (weight 2^63 + 5) and 2 → 3
(weight 2^63 + 7), searching 0 → 3, the comparison of line 61 sees the
wrapped sum 12 and keeps the loop going, while a saturating comparison
would have stopped it: the estimate comparison is NOT saturating. -/
theorem claim_C5_counterexample :
    heapPeek ((bidiIter [[(1, 2 ^ 63 + 5)], [], [(3, 2 ^ 63 + 7)], []]
      (reverse_adj_list [[(1, 2 ^ 63 + 5)], [], [(3, 2 ^ 63 + 7)], []]) 2
      (bidiInit 4 0 3))).heap_fwd = some (2 ^ 63 + 5, 1) ∧
    heapPeek ((bidiIter [[(1, 2 ^ 63 + 5)], [], [(3, 2 ^ 63 + 7)], []]
      (reverse_adj_list [[(1, 2 ^ 63 + 5)], [], [(3, 2 ^ 63 + 7)], []]) 2
      (bidiInit 4 0 3))).heap_bwd = some (2 ^ 63 + 7, 2) ∧
    (bidiIter [[(1, 2 ^ 63 + 5)], [], [(3, 2 ^ 63 + 7)], []]
      (reverse_adj_list [[(1, 2 ^ 63 + 5)], [], [(3, 2 ^ 63 + 7)], []]) 2
      (bidiInit 4 0 3)).estimate ≤ satAdd (2 ^ 63 + 5) (2 ^ 63 + 7) ∧
    wrapAdd (2 ^ 63 + 5) (2 ^ 63 + 7) = 12 ∧
    bidiContinue (bidiIter [[(1, 2 ^ 63 + 5)], [], [(3, 2 ^ 63 + 7)], []]
      (reverse_adj_list [[(1, 2 ^ 63 + 5)], [], [(3, 2 ^ 63 + 7)], []]) 2
      (bidiInit 4 0 3)) = true := by
  decide

/-- C5 (amended): the relaxation sums and the best-total-estimate sums in
`discover_nodes` use saturating arithmetic, so every recorded distance,
every heap cost and the estimate stay clamped at `usize::MAX` and never
wrap (the `SatBound` invariant is preserved by every loop iteration and
holds initially); the loop's termination comparison at line 61, however,
adds the two frontier minima with plain wrapping addition. -/
theorem claim_C5 :
    (∀ graph rev_graph s, SatBound s → SatBound (bidiStep graph rev_graph s)) ∧
    (∀ n start goal, SatBound (bidiInit n start goal)) ∧
    (∀ (s : BidiState) (cf pf cb pb : Nat) restF restB,
      heapPop s.heap_fwd = some ((cf, pf), restF) →
      heapPop s.heap_bwd = some ((cb, pb), restB) →
      (bidiContinue s = true ↔ (cf + cb) % USIZE_MOD < s.estimate)) := by
  refine ⟨bidiStep_satBound, ?_, ?_⟩
  · intro n start goal
    refine ⟨?_, ?_, ?_, ?_, le_rfl⟩
    · intro x hx
      rcases List.mem_or_eq_of_mem_set hx with hx | hx
      · rw [List.eq_of_mem_replicate hx]
      · omega
    · intro x hx
      rcases List.mem_or_eq_of_mem_set hx with hx | hx
      · rw [List.eq_of_mem_replicate hx]
      · omega
    · intro e he
      simp only [bidiInit, List.mem_singleton] at he
      rw [he]
      exact Nat.zero_le _
    · intro e he
      simp only [bidiInit, List.mem_singleton] at he
      rw [he]
      exact Nat.zero_le _
  · intro s cf pf cb pb restF restB hF hB
    unfold bidiContinue
    simp only [heapPeek, hF, hB, Option.map_some]
    unfold wrapAdd
    simp

theorem claim_C5_witness :
    SatBound (bidiInit 2 0 1) ∧
    SatBound (bidiStep [[(1, 1)], []] [[], [(0, 1)]] (bidiInit 2 0 1)) :=
  ⟨claim_C5.2.1 2 0 1,
    claim_C5.1 [[(1, 1)], []] [[], [(0, 1)]] _ (claim_C5.2.1 2 0 1)⟩

/-- C8: for every well-formed input graph, the derived reverse graph has the
same node count; it contains the reversed edge (v → u, w) with exactly the
multiplicity of the forward edge (u → v, w); its total edge count equals the
forward one; and the reverse table built by `Graph::new` is the same as the
one built by `reverse_adj_list`. -/
theorem claim_C8 (g : Graph) (hwf : WellFormed g) :
    (reverse_adj_list g).length = g.length ∧
    (∀ u v w : Nat,
      ((reverse_adj_list g).getD v []).count (u, w) = (g.getD u []).count (v, w)) ∧
    totalEdges (reverse_adj_list g) = totalEdges g ∧
    (GraphStruct.new g).rev_adj_list = reverse_adj_list g :=
  ⟨reverse_adj_list_length g,
    fun u v w => reverse_adj_list_count g hwf u v w,
    totalEdges_reverse g hwf, rfl⟩

theorem claim_C8_witness :
    WellFormed [[(1, 2), (2, 4)], [(2, 1)], []] ∧
    (reverse_adj_list [[(1, 2), (2, 4)], [(2, 1)], []]).length = 3 ∧
    ((reverse_adj_list [[(1, 2), (2, 4)], [(2, 1)], []]).getD 2 []).count (0, 4) = 1 ∧
    totalEdges (reverse_adj_list [[(1, 2), (2, 4)], [(2, 1)], []]) = 3 := by
  have h := claim_C8 [[(1, 2), (2, 4)], [(2, 1)], []] (by decide)
  refine ⟨by decide, ?_, ?_, ?_⟩
  · rw [h.1]
    rfl
  · rw [h.2.1 0 2 4]
    decide
  · rw [h.2.2.1]
    decide

/-!  Walks, reachability and the reverse graph. -/

theorem CostReach_trans {g : Graph} {a b d c1 c2 : Nat}
    (h1 : CostReach g a b c1) (h2 : CostReach g b d c2) :
    CostReach g a d (c1 + c2) := by
  induction h2 with
  | refl => exact h1
  | tail nb w hbd hmem ih => rw [← Nat.add_assoc]; exact CostReach.tail nb w ih hmem

theorem CostReach_head {g : Graph} {a b w c : Nat}
    (hmem : (b, w) ∈ g.getD a []) (h : CostReach g b d c) :
    CostReach g a d (w + c) := by
  have h1 : CostReach g a b (0 + w) := CostReach.tail b w (CostReach.refl a) hmem
  have := CostReach_trans h1 h
  simpa using this

theorem Reachable_refl (g : Graph) (u : Nat) : Reachable g u u := ⟨0, CostReach.refl u⟩

theorem Reachable_trans {g : Graph} {a b d : Nat}
    (h1 : Reachable g a b) (h2 : Reachable g b d) : Reachable g a d := by
  obtain ⟨c1, h1⟩ := h1
  obtain ⟨c2, h2⟩ := h2
  exact ⟨c1 + c2, CostReach_trans h1 h2⟩

theorem Reachable_edge {g : Graph} {a b w : Nat} (hmem : (b, w) ∈ g.getD a []) :
    Reachable g a b := ⟨0 + w, CostReach.tail b w (CostReach.refl a) hmem⟩

theorem getD_mem_self (g : Graph) (u : Nat) (h : u < g.length) :
    g.getD u [] ∈ g := by
  rw [List.getD_eq_getElem?_getD, List.getElem?_eq_getElem h]
  exact List.getElem_mem h

theorem mem_getD_bound {g : Graph} {u : Nat} {e : Nat × Nat}
    (hmem : e ∈ g.getD u []) : u < g.length := by
  by_contra hge
  rw [getD_oob (by omega)] at hmem
  simp at hmem

/-- Membership form of the reverse-graph characterisation. -/
theorem mem_reverse_adj_list {g : Graph} (hwf : WellFormed g) {u v w : Nat} :
    (u, w) ∈ (reverse_adj_list g).getD v [] ↔ (v, w) ∈ g.getD u [] := by
  rw [← List.count_pos_iff, ← List.count_pos_iff,
    reverse_adj_list_count g hwf u v w]

/-!  Single-call effects of `discover_nodes` needed for the invariants. -/

theorem discoverAux_dist_length (node : Nat) (other : List Nat)
    (edges : List (Nat × Nat)) (dist : List Nat) (heap : List HeapEntry)
    (prev : List (Option Nat)) (est : Nat) (lj : Option Nat) :
    (discoverAux node other edges dist heap prev est lj).dist.length = dist.length := by
  induction edges generalizing dist heap prev est lj with
  | nil => rfl
  | cons e rest ih =>
    obtain ⟨neighbor, weight⟩ := e
    simp only [discoverAux]
    by_cases hlt : satAdd (dist.getD node 0) weight < dist.getD neighbor 0 <;>
      simp only [hlt, if_true, if_false] <;> rw [ih] <;> simp

theorem discoverAux_prev_length (node : Nat) (other : List Nat)
    (edges : List (Nat × Nat)) (dist : List Nat) (heap : List HeapEntry)
    (prev : List (Option Nat)) (est : Nat) (lj : Option Nat) :
    (discoverAux node other edges dist heap prev est lj).prev.length = prev.length := by
  induction edges generalizing dist heap prev est lj with
  | nil => rfl
  | cons e rest ih =>
    obtain ⟨neighbor, weight⟩ := e
    simp only [discoverAux]
    by_cases hlt : satAdd (dist.getD node 0) weight < dist.getD neighbor 0 <;>
      simp only [hlt, if_true, if_false] <;> rw [ih] <;> simp

theorem discoverAux_heap_mem (node : Nat) (other : List Nat)
    (edges : List (Nat × Nat)) (dist : List Nat) (heap : List HeapEntry)
    (prev : List (Option Nat)) (est : Nat) (lj : Option Nat) :
    ∀ e ∈ (discoverAux node other edges dist heap prev est lj).heap,
      e ∈ heap ∨ (Prod.snd e) < dist.length := by
  induction edges generalizing dist heap prev est lj with
  | nil => intro e he; exact Or.inl he
  | cons e rest ih =>
    obtain ⟨neighbor, weight⟩ := e
    intro x hx
    simp only [discoverAux] at hx
    by_cases hlt : satAdd (dist.getD node 0) weight < dist.getD neighbor 0
    · simp only [hlt, if_true] at hx
      have hnb : neighbor < dist.length := by
        by_contra hge
        rw [@getD_oob _ dist neighbor 0 (by omega)] at hlt
        omega
      have hlen : (dist.set neighbor (satAdd (dist.getD node 0) weight)).length
          = dist.length := by simp
      rcases ih _ _ _ _ _ x hx with hx2 | hx2
      · rcases List.mem_cons.mp hx2 with hx3 | hx3
        · rw [hx3]; exact Or.inr hnb
        · exact Or.inl hx3
      · rw [hlen] at hx2
        exact Or.inr hx2
    · simp only [hlt, if_false] at hx
      exact ih _ _ _ _ _ x hx

theorem discoverAux_estimate_le (node : Nat) (other : List Nat)
    (edges : List (Nat × Nat)) (dist : List Nat) (heap : List HeapEntry)
    (prev : List (Option Nat)) (est : Nat) (lj : Option Nat) :
    (discoverAux node other edges dist heap prev est lj).estimate ≤ est := by
  induction edges generalizing dist heap prev est lj with
  | nil => exact le_rfl
  | cons e rest ih =>
    obtain ⟨neighbor, weight⟩ := e
    simp only [discoverAux]
    by_cases hcand : other.getD neighbor 0 ≠ USIZE_MAX ∧
        satAdd (satAdd (dist.getD node 0) weight) (other.getD neighbor 0) < est
    · rw [if_pos hcand]
      exact le_trans (ih _ _ _ _ _) (le_of_lt hcand.2)
    · rw [if_neg hcand]
      exact ih _ _ _ _ _

theorem discoverAux_join_none (node : Nat) (other : List Nat)
    (edges : List (Nat × Nat)) (dist : List Nat) (heap : List HeapEntry)
    (prev : List (Option Nat)) (est : Nat) (lj : Option Nat)
    (hnone : (discoverAux node other edges dist heap prev est lj).local_join = none) :
    (discoverAux node other edges dist heap prev est lj).estimate = est ∧ lj = none := by
  induction edges generalizing dist heap prev est lj with
  | nil => exact ⟨rfl, hnone⟩
  | cons e rest ih =>
    obtain ⟨neighbor, weight⟩ := e
    simp only [discoverAux] at hnone ⊢
    by_cases hcand : other.getD neighbor 0 ≠ USIZE_MAX ∧
        satAdd (satAdd (dist.getD node 0) weight) (other.getD neighbor 0) < est
    · rw [if_pos hcand, if_pos hcand] at hnone
      exact absurd (ih _ _ _ _ _ hnone).2 (by simp)
    · rw [if_neg hcand, if_neg hcand] at hnone ⊢
      exact ih _ _ _ _ _ hnone

theorem discoverAux_reach (g : Graph) (start goal : Nat) (P Q : Nat → Prop)
    (node : Nat) (edges : List (Nat × Nat)) (other dist : List Nat)
    (heap : List HeapEntry) (prev : List (Option Nat)) (est : Nat)
    (lj : Option Nat)
    (hPedge : ∀ nb w, (nb, w) ∈ edges → P node → P nb)
    (hnb : ∀ nb w, (nb, w) ∈ edges → nb < g.length)
    (hlen : dist.length = g.length)
    (hdist : ∀ n, n < g.length → dist.getD n 0 < USIZE_MAX → P n)
    (hnode : dist.getD node 0 < USIZE_MAX → P node)
    (hother : ∀ n, n < g.length → other.getD n 0 < USIZE_MAX → Q n)
    (homax : ∀ x ∈ other, x ≤ USIZE_MAX)
    (hPQ : ∀ n, P n → Q n → Reachable g start goal)
    (hestMax : est ≤ USIZE_MAX)
    (hestR : est < USIZE_MAX → Reachable g start goal)
    (hljR : lj.isSome → Reachable g start goal) :
    (∀ n, n < g.length →
      (discoverAux node other edges dist heap prev est lj).dist.getD n 0 < USIZE_MAX →
      P n) ∧
    ((discoverAux node other edges dist heap prev est lj).estimate < USIZE_MAX →
      Reachable g start goal) ∧
    ((discoverAux node other edges dist heap prev est lj).local_join.isSome →
      Reachable g start goal) := by
  induction edges generalizing dist heap prev est lj with
  | nil => exact ⟨hdist, hestR, hljR⟩
  | cons e rest ih =>
    obtain ⟨neighbor, weight⟩ := e
    simp only [discoverAux]
    have hnbE : neighbor < g.length := hnb neighbor weight (List.mem_cons_self _ _)
    have hedgeE : P node → P neighbor := hPedge neighbor weight (List.mem_cons_self _ _)
    have hPrest : ∀ nb w, (nb, w) ∈ rest → P node → P nb :=
      fun nb w hm => hPedge nb w (List.mem_cons_of_mem _ hm)
    have hnbrest : ∀ nb w, (nb, w) ∈ rest → nb < g.length :=
      fun nb w hm => hnb nb w (List.mem_cons_of_mem _ hm)
    set new_cost := satAdd (dist.getD node 0) weight with hnc
    by_cases hlt : new_cost < dist.getD neighbor 0
    · rw [if_pos hlt, if_pos hlt]
      have hset_len : (dist.set neighbor new_cost).length = g.length := by
        rw [List.length_set]; exact hlen
      have hnode1 : (dist.set neighbor new_cost).getD node 0 < USIZE_MAX → P node := by
        intro hno
        by_cases hne : neighbor = node
        · subst hne
          rw [getD_set_self _ _ (by omega)] at hno
          have := satAdd_lt_max hno
          exact hnode (by omega)
        · rw [getD_set_ne _ _ hne] at hno
          exact hnode hno
      have hdist1 : ∀ n, n < g.length →
          (dist.set neighbor new_cost).getD n 0 < USIZE_MAX → P n := by
        intro n hn hval
        by_cases hne : neighbor = n
        · subst hne
          rw [getD_set_self _ _ (by omega)] at hval
          have := satAdd_lt_max hval
          exact hedgeE (hnode (by omega))
        · rw [getD_set_ne _ _ hne] at hval
          exact hdist n hn hval
      by_cases hcand : other.getD neighbor 0 ≠ USIZE_MAX ∧
          satAdd new_cost (other.getD neighbor 0) < est
      · rw [if_pos hcand, if_pos hcand]
        have htotal : satAdd new_cost (other.getD neighbor 0) < USIZE_MAX := by
          omega
        have hRs : Reachable g start goal := by
          have hsum := satAdd_lt_max htotal
          have hP : P neighbor := by
            have hnc_lt : new_cost < USIZE_MAX := by omega
            have := satAdd_lt_max hnc_lt
            exact hedgeE (hnode (by omega))
          have hQ : Q neighbor := hother neighbor hnbE (by omega)
          exact hPQ neighbor hP hQ
        exact ih _ _ _ _ _ hPrest hnbrest hset_len hdist1 hnode1
          (le_of_lt htotal) (fun _ => hRs) (fun _ => hRs)
      · rw [if_neg hcand, if_neg hcand]
        exact ih _ _ _ _ _ hPrest hnbrest hset_len hdist1 hnode1
          hestMax hestR hljR
    · rw [if_neg hlt, if_neg hlt]
      by_cases hcand : other.getD neighbor 0 ≠ USIZE_MAX ∧
          satAdd new_cost (other.getD neighbor 0) < est
      · rw [if_pos hcand, if_pos hcand]
        have htotal : satAdd new_cost (other.getD neighbor 0) < USIZE_MAX := by
          omega
        have hRs : Reachable g start goal := by
          have hsum := satAdd_lt_max htotal
          have hP : P neighbor := by
            have hnc_lt : new_cost < USIZE_MAX := by omega
            have := satAdd_lt_max hnc_lt
            exact hedgeE (hnode (by omega))
          have hQ : Q neighbor := hother neighbor hnbE (by omega)
          exact hPQ neighbor hP hQ
        exact ih _ _ _ _ _ hPrest hnbrest hlen hdist hnode
          (le_of_lt htotal) (fun _ => hRs) (fun _ => hRs)
      · rw [if_neg hcand, if_neg hcand]
        exact ih _ _ _ _ _ hPrest hnbrest hlen hdist hnode
          hestMax hestR hljR

/-- The initial bidirectional state satisfies the saturation bound. -/
theorem bidiInit_satBound (n start goal : Nat) : SatBound (bidiInit n start goal) := by
  refine ⟨?_, ?_, ?_, ?_, le_rfl⟩
  · intro x hx
    rcases List.mem_or_eq_of_mem_set hx with hx | hx
    · rw [List.eq_of_mem_replicate hx]
    · omega
  · intro x hx
    rcases List.mem_or_eq_of_mem_set hx with hx | hx
    · rw [List.eq_of_mem_replicate hx]
    · omega
  · intro e he
    simp only [bidiInit, List.mem_singleton] at he
    rw [he]
    exact Nat.zero_le _
  · intro e he
    simp only [bidiInit, List.mem_singleton] at he
    rw [he]
    exact Nat.zero_le _

/-- One loop iteration preserves the reachability bookkeeping. -/
theorem bidiStep_reachInv (g : Graph) (start goal : Nat) (hwf : WellFormed g)
    (s : BidiState) (hsat : SatBound s) (hinv : ReachInv g start goal s) :
    ReachInv g start goal (bidiStep g (reverse_adj_list g) s) := by
  obtain ⟨hlF, hlB, hhF, hhB, hrF, hrB, hestR, hjR, hjE⟩ := hinv
  obtain ⟨hdFmax, hdBmax, hhFmax, hhBmax, hestMax⟩ := hsat
  unfold bidiStep
  cases hF : heapPop s.heap_fwd with
  | none => exact ⟨hlF, hlB, hhF, hhB, hrF, hrB, hestR, hjR, hjE⟩
  | some pF =>
    cases hB : heapPop s.heap_bwd with
    | none => exact ⟨hlF, hlB, hhF, hhB, hrF, hrB, hestR, hjR, hjE⟩
    | some pB =>
      obtain ⟨⟨cf, pf⟩, restF⟩ := pF
      obtain ⟨⟨cb, pb⟩, restB⟩ := pB
      by_cases hbrk : s.estimate ≤ wrapAdd cf cb
      · simp only [hbrk, if_true]
        exact ⟨hlF, hlB, hhF, hhB, hrF, hrB, hestR, hjR, hjE⟩
      · simp only [hbrk, if_false]
        by_cases hfb : cf < cb
        · simp only [hfb, if_true]
          have hpf : pf < g.length := hhF (cf, pf) (heapPop_mem hF)
          have hreach := discoverAux_reach g start goal
            (fun n => Reachable g start n) (fun n => Reachable g n goal)
            pf (g.getD pf []) s.dist_bwd s.dist_fwd restF s.prev_fwd
            s.estimate s.join_node
            (fun nb w hm hP => Reachable_trans hP (Reachable_edge hm))
            (fun nb w hm => (hwf _ (getD_mem_self g pf hpf) _ hm).1)
            hlF hrF (fun h => hrF pf hpf h) hrB hdBmax
            (fun n hP hQ => Reachable_trans hP hQ)
            hestMax hestR hjR
          have hheap := discoverAux_heap_mem pf s.dist_bwd (g.getD pf [])
            s.dist_fwd restF s.prev_fwd s.estimate s.join_node
          have hdlen := discoverAux_dist_length pf s.dist_bwd (g.getD pf [])
            s.dist_fwd restF s.prev_fwd s.estimate s.join_node
          unfold discover_nodes
          cases hr : (discoverAux pf s.dist_bwd (g.getD pf [])
              s.dist_fwd restF s.prev_fwd s.estimate s.join_node).local_join with
          | some j =>
            simp only [hr]
            refine ⟨by rw [hdlen]; exact hlF, hlB, ?_, hhB, hreach.1, hrB,
              hreach.2.1, fun _ => hreach.2.2 (by rw [hr]; rfl), by simp⟩
            intro e he
            rcases hheap e he with he2 | he2
            · exact hhF e (heapPop_mem_rest hF he2)
            · rw [hlF] at he2; exact he2
          | none =>
            simp only [hr]
            refine ⟨by rw [hdlen]; exact hlF, hlB, ?_, hhB, hreach.1, hrB,
              hestR, hjR, hjE⟩
            intro e he
            rcases hheap e he with he2 | he2
            · exact hhF e (heapPop_mem_rest hF he2)
            · rw [hlF] at he2; exact he2
        · simp only [hfb, if_false]
          have hpb : pb < g.length := hhB (cb, pb) (heapPop_mem hB)
          have hreach := discoverAux_reach g start goal
            (fun n => Reachable g n goal) (fun n => Reachable g start n)
            pb ((reverse_adj_list g).getD pb []) s.dist_fwd s.dist_bwd restB
            s.prev_bwd s.estimate s.join_node
            (fun nb w hm hP =>
              Reachable_trans (Reachable_edge ((mem_reverse_adj_list hwf).mp hm)) hP)
            (fun nb w hm => mem_getD_bound ((mem_reverse_adj_list hwf).mp hm))
            hlB hrB (fun h => hrB pb hpb h) hrF hdFmax
            (fun n hP hQ => Reachable_trans hQ hP)
            hestMax hestR hjR
          have hheap := discoverAux_heap_mem pb s.dist_fwd
            ((reverse_adj_list g).getD pb []) s.dist_bwd restB s.prev_bwd
            s.estimate s.join_node
          have hdlen := discoverAux_dist_length pb s.dist_fwd
            ((reverse_adj_list g).getD pb []) s.dist_bwd restB s.prev_bwd
            s.estimate s.join_node
          unfold discover_nodes
          cases hr : (discoverAux pb s.dist_fwd ((reverse_adj_list g).getD pb [])
              s.dist_bwd restB s.prev_bwd s.estimate s.join_node).local_join with
          | some j =>
            simp only [hr]
            refine ⟨hlF, by rw [hdlen]; exact hlB, hhF, ?_, hrF, hreach.1,
              hreach.2.1, fun _ => hreach.2.2 (by rw [hr]; rfl), by simp⟩
            intro e he
            rcases hheap e he with he2 | he2
            · exact hhB e (heapPop_mem_rest hB he2)
            · rw [hlB] at he2; exact he2
          | none =>
            simp only [hr]
            refine ⟨hlF, by rw [hdlen]; exact hlB, hhF, ?_, hrF, hreach.1,
              hestR, hjR, hjE⟩
            intro e he
            rcases hheap e he with he2 | he2
            · exact hhB e (heapPop_mem_rest hB he2)
            · rw [hlB] at he2; exact he2

/-- The initial bidirectional state satisfies the reachability bookkeeping. -/
theorem bidiInit_reachInv (g : Graph) (start goal : Nat)
    (hs : start < g.length) (hg : goal < g.length) :
    ReachInv g start goal (bidiInit g.length start goal) := by
  refine ⟨by simp [bidiInit], by simp [bidiInit], ?_, ?_, ?_, ?_, ?_, ?_, ?_⟩
  · intro e he
    simp only [bidiInit, List.mem_singleton] at he
    rw [he]
    exact hs
  · intro e he
    simp only [bidiInit, List.mem_singleton] at he
    rw [he]
    exact hg
  · intro n hn hval
    simp only [bidiInit] at hval
    by_cases hne : start = n
    · subst hne
      exact Reachable_refl g start
    · rw [getD_set_ne _ _ hne, getD_replicate _ _ hn] at hval
      omega
  · intro n hn hval
    simp only [bidiInit] at hval
    by_cases hne : goal = n
    · subst hne
      exact Reachable_refl g goal
    · rw [getD_set_ne _ _ hne, getD_replicate _ _ hn] at hval
      omega
  · intro hval
    simp only [bidiInit] at hval
    omega
  · intro hval
    simp [bidiInit] at hval
  · intro _
    rfl

/-- C6: for every well-formed graph and in-bounds pair with the goal
unreachable from the start, `bidirectional_dijkstra` returns the no-path
sentinel cost `usize::MAX` together with the empty path. -/
theorem claim_C6 (g : Graph) (start goal : Nat) (hwf : WellFormed g)
    (hs : start < g.length) (hg : goal < g.length)
    (hun : ¬ Reachable g start goal) :
    bidirectional_dijkstra g start goal = some (USIZE_MAX, []) := by
  have hne : start ≠ goal := by
    intro h
    exact hun (h ▸ Reachable_refl g start)
  unfold bidirectional_dijkstra
  rw [if_neg hne, if_pos ⟨hs, hg⟩]
  have hfinal := bidiLoop_inv
    (fun s => SatBound s ∧ ReachInv g start goal s)
    (fun s _ hp => ⟨bidiStep_satBound _ _ _ hp.1,
      bidiStep_reachInv g start goal hwf s hp.1 hp.2⟩)
    (bidiInit g.length start goal)
    ⟨bidiInit_satBound g.length start goal, bidiInit_reachInv g start goal hs hg⟩
  cases hjoin : (bidiLoop g (reverse_adj_list g)
      (bidiInit g.length start goal)).join_node with
  | some j =>
    exact absurd (hfinal.2.2.2.2.2.2.2.2.1 (by rw [hjoin]; rfl)) hun
  | none =>
    simp only [hjoin]

theorem claim_C6_witness :
    WellFormed [[], [(0, 3)]] ∧ (0 : Nat) < 2 ∧ (1 : Nat) < 2 ∧
    ¬ Reachable [[], [(0, 3)]] 0 1 ∧
    bidirectional_dijkstra [[], [(0, 3)]] 0 1 = some (USIZE_MAX, []) := by
  have hstep : ∀ v w : Nat, ((1 : Nat), w) ∈ ([[], [(0, 3)]] : Graph).getD v [] → False := by
    intro v w hm
    match v with
    | 0 => simp at hm
    | 1 => simp at hm
    | n + 2 =>
      rw [getD_oob (by simp)] at hm
      simp at hm
  have hun : ¬ Reachable [[], [(0, 3)]] 0 1 := by
    rintro ⟨c, hc⟩
    cases hc with
    | tail nb w hprev hmem => exact hstep _ _ hmem
  exact ⟨by decide, by decide, by decide, hun,
    claim_C6 [[], [(0, 3)]] 0 1 (by decide) (by decide) (by decide) hun⟩

/-!  Fine-grained effects of one `discover_nodes` call. -/

theorem getD_le_max {dist : List Nat} (hmax : ∀ x ∈ dist, x ≤ USIZE_MAX)
    (n : Nat) : dist.getD n 0 ≤ USIZE_MAX := by
  by_cases h : n < dist.length
  · refine hmax _ ?_
    rw [List.getD_eq_getElem?_getD, List.getElem?_eq_getElem h]
    exact List.getElem_mem h
  · rw [getD_oob (by omega)]
    exact Nat.zero_le _

theorem getD_mem_of_lt {dist : List Nat} {n : Nat} (h : n < dist.length) :
    dist.getD n 0 ∈ dist := by
  rw [List.getD_eq_getElem?_getD, List.getElem?_eq_getElem h]
  exact List.getElem_mem h

theorem set_max_preserve {dist : List Nat} {i v : Nat}
    (hmax : ∀ x ∈ dist, x ≤ USIZE_MAX) (hv : v ≤ USIZE_MAX) :
    ∀ x ∈ dist.set i v, x ≤ USIZE_MAX := by
  intro x hx
  rcases List.mem_or_eq_of_mem_set hx with hx | hx
  · exact hmax x hx
  · omega

theorem guard_lt_length {dist : List Nat} {nb v : Nat}
    (hlt : v < dist.getD nb 0) : nb < dist.length := by
  by_contra hge
  rw [@getD_oob _ dist nb 0 (by omega)] at hlt
  omega

theorem discoverAux_dist_mono (node : Nat) (other : List Nat)
    (edges : List (Nat × Nat)) (dist : List Nat) (heap : List HeapEntry)
    (prev : List (Option Nat)) (est : Nat) (lj : Option Nat) (n : Nat) :
    (discoverAux node other edges dist heap prev est lj).dist.getD n 0 ≤
      dist.getD n 0 := by
  induction edges generalizing dist heap prev est lj with
  | nil => exact le_rfl
  | cons e rest ih =>
    obtain ⟨neighbor, weight⟩ := e
    simp only [discoverAux]
    by_cases hlt : satAdd (dist.getD node 0) weight < dist.getD neighbor 0
    · simp only [hlt, if_true]
      refine le_trans (ih _ _ _ _ _) ?_
      by_cases hne : neighbor = n
      · subst hne
        rw [getD_set_self _ _ (guard_lt_length hlt)]
        omega
      · rw [getD_set_ne _ _ hne]
    · simp only [hlt, if_false]
      exact ih _ _ _ _ _

theorem discoverAux_node_stable (node : Nat) (other : List Nat)
    (edges : List (Nat × Nat)) (dist : List Nat) (heap : List HeapEntry)
    (prev : List (Option Nat)) (est : Nat) (lj : Option Nat)
    (hmax : ∀ x ∈ dist, x ≤ USIZE_MAX) :
    (discoverAux node other edges dist heap prev est lj).dist.getD node 0 =
      dist.getD node 0 := by
  induction edges generalizing dist heap prev est lj with
  | nil => rfl
  | cons e rest ih =>
    obtain ⟨neighbor, weight⟩ := e
    simp only [discoverAux]
    by_cases hlt : satAdd (dist.getD node 0) weight < dist.getD neighbor 0
    · simp only [hlt, if_true]
      have hne : neighbor ≠ node := by
        intro hcontra
        subst hcontra
        have := le_satAdd_left (b := weight) (getD_le_max hmax neighbor)
        omega
      rw [ih _ _ _ _ _ (set_max_preserve hmax (satAdd_le_max _ _))]
      rw [getD_set_ne _ _ hne]
    · simp only [hlt, if_false]
      exact ih _ _ _ _ _ hmax

theorem discoverAux_stable_min (h : Graph) (src : Nat) (node : Nat)
    (other : List Nat) (edges : List (Nat × Nat)) (dist : List Nat)
    (heap : List HeapEntry) (prev : List (Option Nat)) (est : Nat)
    (lj : Option Nat)
    (hmax : ∀ x ∈ dist, x ≤ USIZE_MAX)
    (hed : ∀ nb w, (nb, w) ∈ edges → (nb, w) ∈ h.getD node [])
    (hgenNode : dist.getD node 0 < USIZE_MAX →
      CostReach h src node (dist.getD node 0))
    (n : Nat)
    (hnmin : ∀ c, CostReach h src n c → dist.getD n 0 ≤ c) :
    (discoverAux node other edges dist heap prev est lj).dist.getD n 0 =
      dist.getD n 0 := by
  induction edges generalizing dist heap prev est lj with
  | nil => rfl
  | cons e rest ih =>
    obtain ⟨neighbor, weight⟩ := e
    simp only [discoverAux]
    by_cases hlt : satAdd (dist.getD node 0) weight < dist.getD neighbor 0
    · simp only [hlt, if_true]
      have hnbne : neighbor ≠ n := by
        intro hcontra
        subst hcontra
        have hdnb : dist.getD neighbor 0 ≤ USIZE_MAX := getD_le_max hmax neighbor
        have hncM : satAdd (dist.getD node 0) weight < USIZE_MAX := by omega
        have hplain := satAdd_lt_max hncM
        have hnodeM : dist.getD node 0 < USIZE_MAX := by omega
        have hgen := hgenNode hnodeM
        have hwalk : CostReach h src neighbor (dist.getD node 0 + weight) :=
          CostReach.tail neighbor weight hgen
            (hed neighbor weight (List.mem_cons_self _ _))
        have := hnmin _ hwalk
        rw [satAdd_eq_add hplain] at hlt
        omega
      have hnode_ne : neighbor ≠ node := by
        intro hcontra
        subst hcontra
        have := le_satAdd_left (b := weight) (getD_le_max hmax neighbor)
        omega
      have hmax1 := set_max_preserve (i := neighbor)
        (v := satAdd (dist.getD node 0) weight) hmax (satAdd_le_max _ _)
      have hstable : (dist.set neighbor (satAdd (dist.getD node 0) weight)).getD node 0
          = dist.getD node 0 := getD_set_ne _ _ hnode_ne
      have hstN : (dist.set neighbor (satAdd (dist.getD node 0) weight)).getD n 0
          = dist.getD n 0 := getD_set_ne _ _ hnbne
      rw [ih _ _ _ _ _ hmax1
        (fun nb w hm => hed nb w (List.mem_cons_of_mem _ hm))
        (by rw [hstable]; exact hgenNode)
        (by rw [hstN]; exact hnmin)]
      exact hstN
    · simp only [hlt, if_false]
      exact ih _ _ _ _ _ hmax
        (fun nb w hm => hed nb w (List.mem_cons_of_mem _ hm)) hgenNode hnmin

theorem discoverAux_relaxed (node : Nat) (other : List Nat)
    (edges : List (Nat × Nat)) (dist : List Nat) (heap : List HeapEntry)
    (prev : List (Option Nat)) (est : Nat) (lj : Option Nat)
    (hmax : ∀ x ∈ dist, x ≤ USIZE_MAX) :
    ∀ nb w, (nb, w) ∈ edges →
      (discoverAux node other edges dist heap prev est lj).dist.getD nb 0 ≤
        satAdd (dist.getD node 0) w := by
  induction edges generalizing dist heap prev est lj with
  | nil => intro nb w hm; simp at hm
  | cons e rest ih =>
    obtain ⟨neighbor, weight⟩ := e
    intro nb w hm
    simp only [discoverAux]
    by_cases hlt : satAdd (dist.getD node 0) weight < dist.getD neighbor 0
    · simp only [hlt, if_true]
      have hmax1 := set_max_preserve (i := neighbor)
        (v := satAdd (dist.getD node 0) weight) hmax (satAdd_le_max _ _)
      have hnode_ne : neighbor ≠ node := by
        intro hcontra
        subst hcontra
        have := le_satAdd_left (b := weight) (getD_le_max hmax neighbor)
        omega
      have hstable : (dist.set neighbor (satAdd (dist.getD node 0) weight)).getD node 0
          = dist.getD node 0 := getD_set_ne _ _ hnode_ne
      rcases List.mem_cons.mp hm with hm1 | hm1
      · obtain ⟨he1, he2⟩ := Prod.mk.injEq .. ▸ hm1
        subst he1
        subst he2
        refine le_trans (discoverAux_dist_mono _ _ _ _ _ _ _ _ _) ?_
        rw [getD_set_self _ _ (guard_lt_length hlt)]
      · exact le_trans (ih _ _ _ _ _ hmax1 nb w hm1) (by rw [hstable])
    · simp only [hlt, if_false]
      rcases List.mem_cons.mp hm with hm1 | hm1
      · obtain ⟨he1, he2⟩ := Prod.mk.injEq .. ▸ hm1
        subst he1
        subst he2
        refine le_trans (discoverAux_dist_mono _ _ _ _ _ _ _ _ _) ?_
        omega
      · exact ih _ _ _ _ _ hmax nb w hm1

theorem discoverAux_genuine (h : Graph) (src : Nat) (node : Nat)
    (other : List Nat) (edges : List (Nat × Nat)) (dist : List Nat)
    (heap : List HeapEntry) (prev : List (Option Nat)) (est : Nat)
    (lj : Option Nat)
    (hmax : ∀ x ∈ dist, x ≤ USIZE_MAX)
    (hlen : dist.length = h.length)
    (hed : ∀ nb w, (nb, w) ∈ edges → (nb, w) ∈ h.getD node [])
    (hgen : ∀ n, n < h.length → dist.getD n 0 < USIZE_MAX →
      CostReach h src n (dist.getD n 0)) :
    ∀ n, n < h.length →
      (discoverAux node other edges dist heap prev est lj).dist.getD n 0 < USIZE_MAX →
      CostReach h src n
        ((discoverAux node other edges dist heap prev est lj).dist.getD n 0) := by
  induction edges generalizing dist heap prev est lj with
  | nil => exact hgen
  | cons e rest ih =>
    obtain ⟨neighbor, weight⟩ := e
    simp only [discoverAux]
    by_cases hlt : satAdd (dist.getD node 0) weight < dist.getD neighbor 0
    · simp only [hlt, if_true]
      have hnodeLt : node < h.length := by
        have := hed neighbor weight (List.mem_cons_self _ _)
        exact mem_getD_bound this
      have hncM : satAdd (dist.getD node 0) weight < USIZE_MAX := by
        have := getD_le_max hmax neighbor
        omega
      have hplain := satAdd_lt_max hncM
      have hgenNC : CostReach h src neighbor (satAdd (dist.getD node 0) weight) := by
        rw [satAdd_eq_add hplain]
        exact CostReach.tail neighbor weight
          (hgen node hnodeLt (by omega))
          (hed neighbor weight (List.mem_cons_self _ _))
      have hmax1 := set_max_preserve (i := neighbor)
        (v := satAdd (dist.getD node 0) weight) hmax (satAdd_le_max _ _)
      have hlen1 : (dist.set neighbor (satAdd (dist.getD node 0) weight)).length
          = h.length := by rw [List.length_set]; exact hlen
      have hgen1 : ∀ n, n < h.length →
          (dist.set neighbor (satAdd (dist.getD node 0) weight)).getD n 0 < USIZE_MAX →
          CostReach h src n
            ((dist.set neighbor (satAdd (dist.getD node 0) weight)).getD n 0) := by
        intro n hn hval
        by_cases hne : neighbor = n
        · subst hne
          rw [getD_set_self _ _ (guard_lt_length hlt)] at hval ⊢
          exact hgenNC
        · rw [getD_set_ne _ _ hne] at hval ⊢
          exact hgen n hn hval
      exact ih _ _ _ _ _ hmax1 hlen1
        (fun nb w hm => hed nb w (List.mem_cons_of_mem _ hm)) hgen1
    · simp only [hlt, if_false]
      exact ih _ _ _ _ _ hmax hlen
        (fun nb w hm => hed nb w (List.mem_cons_of_mem _ hm)) hgen

theorem discoverAux_heap_grows (node : Nat) (other : List Nat)
    (edges : List (Nat × Nat)) (dist : List Nat) (heap : List HeapEntry)
    (prev : List (Option Nat)) (est : Nat) (lj : Option Nat) :
    ∀ e ∈ heap, e ∈ (discoverAux node other edges dist heap prev est lj).heap := by
  induction edges generalizing dist heap prev est lj with
  | nil => intro e he; exact he
  | cons e rest ih =>
    obtain ⟨neighbor, weight⟩ := e
    intro x hx
    simp only [discoverAux]
    by_cases hlt : satAdd (dist.getD node 0) weight < dist.getD neighbor 0
    · simp only [hlt, if_true]
      exact ih _ _ _ _ _ x (List.mem_cons_of_mem _ hx)
    · simp only [hlt, if_false]
      exact ih _ _ _ _ _ x hx

theorem discoverAux_open (node : Nat) (other : List Nat)
    (edges : List (Nat × Nat)) (dist : List Nat) (heap : List HeapEntry)
    (prev : List (Option Nat)) (est : Nat) (lj : Option Nat) :
    ∀ n, (discoverAux node other edges dist heap prev est lj).dist.getD n 0 ≠
        dist.getD n 0 →
      ((discoverAux node other edges dist heap prev est lj).dist.getD n 0, n) ∈
        (discoverAux node other edges dist heap prev est lj).heap := by
  induction edges generalizing dist heap prev est lj with
  | nil => intro n hn; exact absurd rfl hn
  | cons e rest ih =>
    obtain ⟨neighbor, weight⟩ := e
    intro n hn
    simp only [discoverAux] at hn ⊢
    by_cases hlt : satAdd (dist.getD node 0) weight < dist.getD neighbor 0
    · simp only [hlt, if_true] at hn ⊢
      by_cases hch : (discoverAux node other rest
          (dist.set neighbor (satAdd (dist.getD node 0) weight))
          ((satAdd (dist.getD node 0) weight, neighbor) :: heap)
          (prev.set neighbor (some node))
          (if other.getD neighbor 0 ≠ USIZE_MAX ∧
              satAdd (satAdd (dist.getD node 0) weight) (other.getD neighbor 0) < est
            then satAdd (satAdd (dist.getD node 0) weight) (other.getD neighbor 0)
            else est)
          (if other.getD neighbor 0 ≠ USIZE_MAX ∧
              satAdd (satAdd (dist.getD node 0) weight) (other.getD neighbor 0) < est
            then some neighbor else lj)).dist.getD n 0 =
          (dist.set neighbor (satAdd (dist.getD node 0) weight)).getD n 0
      · rw [hch]
        by_cases hne : neighbor = n
        · subst hne
          rw [getD_set_self _ _ (guard_lt_length hlt)]
          exact discoverAux_heap_grows _ _ _ _ _ _ _ _ _ (List.mem_cons_self _ _)
        · rw [getD_set_ne _ _ hne] at hch ⊢
          rw [hch] at hn
          exact absurd rfl hn
      · exact ih _ _ _ _ _ n hch
    · simp only [hlt, if_false] at hn ⊢
      exact ih _ _ _ _ _ n hn

theorem discoverAux_heap_sound (h : Graph) (src : Nat) (node : Nat)
    (other : List Nat) (edges : List (Nat × Nat)) (dist : List Nat)
    (heap : List HeapEntry) (prev : List (Option Nat)) (est : Nat)
    (lj : Option Nat)
    (hmax : ∀ x ∈ dist, x ≤ USIZE_MAX)
    (hlen : dist.length = h.length)
    (hed : ∀ nb w, (nb, w) ∈ edges → (nb, w) ∈ h.getD node [])
    (hgen : ∀ n, n < h.length → dist.getD n 0 < USIZE_MAX →
      CostReach h src n (dist.getD n 0))
    (hin : ∀ e ∈ heap, (Prod.snd e) < h.length ∧ (Prod.fst e) < USIZE_MAX ∧
      dist.getD (Prod.snd e) 0 ≤ (Prod.fst e) ∧
      CostReach h src (Prod.snd e) (Prod.fst e)) :
    ∀ e ∈ (discoverAux node other edges dist heap prev est lj).heap,
      (Prod.snd e) < h.length ∧ (Prod.fst e) < USIZE_MAX ∧
      (discoverAux node other edges dist heap prev est lj).dist.getD (Prod.snd e) 0 ≤
        (Prod.fst e) ∧
      CostReach h src (Prod.snd e) (Prod.fst e) := by
  induction edges generalizing dist heap prev est lj with
  | nil => exact hin
  | cons e rest ih =>
    obtain ⟨neighbor, weight⟩ := e
    simp only [discoverAux]
    by_cases hlt : satAdd (dist.getD node 0) weight < dist.getD neighbor 0
    · simp only [hlt, if_true]
      have hncM : satAdd (dist.getD node 0) weight < USIZE_MAX := by
        have := getD_le_max hmax neighbor
        omega
      have hnodeLt : node < h.length :=
        mem_getD_bound (hed neighbor weight (List.mem_cons_self _ _))
      have hplain := satAdd_lt_max hncM
      have hgenNC : CostReach h src neighbor (satAdd (dist.getD node 0) weight) := by
        rw [satAdd_eq_add hplain]
        exact CostReach.tail neighbor weight (hgen node hnodeLt (by omega))
          (hed neighbor weight (List.mem_cons_self _ _))
      have hnbH : neighbor < h.length := by
        rw [← hlen]
        exact guard_lt_length hlt
      have hmax1 := set_max_preserve (i := neighbor)
        (v := satAdd (dist.getD node 0) weight) hmax (satAdd_le_max _ _)
      have hlen1 : (dist.set neighbor (satAdd (dist.getD node 0) weight)).length
          = h.length := by rw [List.length_set]; exact hlen
      have hgen1 : ∀ n, n < h.length →
          (dist.set neighbor (satAdd (dist.getD node 0) weight)).getD n 0 < USIZE_MAX →
          CostReach h src n
            ((dist.set neighbor (satAdd (dist.getD node 0) weight)).getD n 0) := by
        intro n hn hval
        by_cases hne : neighbor = n
        · subst hne
          rw [getD_set_self _ _ (guard_lt_length hlt)] at hval ⊢
          exact hgenNC
        · rw [getD_set_ne _ _ hne] at hval ⊢
          exact hgen n hn hval
      have hin1 : ∀ e ∈ (satAdd (dist.getD node 0) weight, neighbor) :: heap,
          (Prod.snd e) < h.length ∧ (Prod.fst e) < USIZE_MAX ∧
          (dist.set neighbor (satAdd (dist.getD node 0) weight)).getD (Prod.snd e) 0 ≤
            (Prod.fst e) ∧
          CostReach h src (Prod.snd e) (Prod.fst e) := by
        intro x hx
        rcases List.mem_cons.mp hx with hx1 | hx1
        · subst hx1
          refine ⟨hnbH, hncM, ?_, hgenNC⟩
          rw [getD_set_self _ _ (guard_lt_length hlt)]
        · obtain ⟨h1, h2, h3, h4⟩ := hin x hx1
          refine ⟨h1, h2, ?_, h4⟩
          by_cases hne : neighbor = (Prod.snd x)
          · rw [← hne] at h3 ⊢
            rw [getD_set_self _ _ (guard_lt_length hlt)]
            omega
          · rw [getD_set_ne _ _ hne]
            exact h3
      exact ih _ _ _ _ _ hmax1 hlen1
        (fun nb w hm => hed nb w (List.mem_cons_of_mem _ hm)) hgen1 hin1
    · simp only [hlt, if_false]
      exact ih _ _ _ _ _ hmax hlen
        (fun nb w hm => hed nb w (List.mem_cons_of_mem _ hm)) hgen hin

theorem discoverAux_prev_some (node : Nat) (other : List Nat)
    (edges : List (Nat × Nat)) (dist : List Nat) (heap : List HeapEntry)
    (prev : List (Option Nat)) (est : Nat) (lj : Option Nat)
    (hmax : ∀ x ∈ dist, x ≤ USIZE_MAX)
    (hpd : prev.length = dist.length) :
    ∀ n q, (discoverAux node other edges dist heap prev est lj).prev.getD n none =
        some q →
      (prev.getD n none = some q ∧
        (discoverAux node other edges dist heap prev est lj).dist.getD n 0 =
          dist.getD n 0) ∨
      (q = node ∧ ∃ w, (n, w) ∈ edges ∧
        (discoverAux node other edges dist heap prev est lj).dist.getD n 0 =
          satAdd (dist.getD node 0) w ∧
        (discoverAux node other edges dist heap prev est lj).dist.getD n 0 <
          USIZE_MAX ∧
        (discoverAux node other edges dist heap prev est lj).dist.getD n 0 <
          dist.getD n 0) := by
  induction edges generalizing dist heap prev est lj with
  | nil => intro n q hq; exact Or.inl ⟨hq, rfl⟩
  | cons e rest ih =>
    obtain ⟨neighbor, weight⟩ := e
    intro n q hq
    simp only [discoverAux] at hq ⊢
    by_cases hlt : satAdd (dist.getD node 0) weight < dist.getD neighbor 0
    · simp only [hlt, if_true] at hq ⊢
      have hnodeStable : (dist.set neighbor (satAdd (dist.getD node 0) weight)).getD node 0
          = dist.getD node 0 := by
        have hnode_ne : neighbor ≠ node := by
          intro hcontra
          subst hcontra
          have := le_satAdd_left (b := weight) (getD_le_max hmax neighbor)
          omega
        exact getD_set_ne _ _ hnode_ne
      have hmax1 := set_max_preserve (i := neighbor)
        (v := satAdd (dist.getD node 0) weight) hmax (satAdd_le_max _ _)
      have hpd1 : (prev.set neighbor (some node)).length
          = (dist.set neighbor (satAdd (dist.getD node 0) weight)).length := by
        simp [hpd]
      rcases ih _ _ _ _ _ hmax1 hpd1 n q hq with ⟨hq1, hq2⟩ |
        ⟨hq1, w, hw1, hw2, hw3, hw4⟩
      · by_cases hne : neighbor = n
        · subst hne
          rw [getD_set_self (some node) none
            (by rw [hpd]; exact guard_lt_length hlt)] at hq1
          have hqnode : q = node := by
            simpa using hq1.symm
          refine Or.inr ⟨hqnode, weight, List.mem_cons_self _ _, ?_, ?_, ?_⟩
          · rw [hq2, getD_set_self _ _ (guard_lt_length hlt)]
          · rw [hq2, getD_set_self _ _ (guard_lt_length hlt)]
            have := getD_le_max hmax neighbor
            omega
          · rw [hq2, getD_set_self _ _ (guard_lt_length hlt)]
            exact hlt
        · rw [getD_set_ne (some node) none hne] at hq1
          rw [getD_set_ne _ _ hne] at hq2
          exact Or.inl ⟨hq1, hq2⟩
      · refine Or.inr ⟨hq1, w, List.mem_cons_of_mem _ hw1, ?_, hw3, ?_⟩
        · rw [hw2, hnodeStable]
        · by_cases hne : neighbor = n
          · subst hne
            rw [getD_set_self _ _ (guard_lt_length hlt)] at hw4
            omega
          · rw [getD_set_ne _ _ hne] at hw4
            exact hw4
    · simp only [hlt, if_false] at hq ⊢
      rcases ih _ _ _ _ _ hmax hpd n q hq with h1 | ⟨hq1, w, hw1, hw2, hw3, hw4⟩
      · exact Or.inl h1
      · exact Or.inr ⟨hq1, w, List.mem_cons_of_mem _ hw1, hw2, hw3, hw4⟩

theorem discoverAux_prev_none (node : Nat) (other : List Nat)
    (edges : List (Nat × Nat)) (dist : List Nat) (heap : List HeapEntry)
    (prev : List (Option Nat)) (est : Nat) (lj : Option Nat)
    (hpd : prev.length = dist.length) :
    ∀ n, (discoverAux node other edges dist heap prev est lj).prev.getD n none =
        none →
      prev.getD n none = none ∧
      (discoverAux node other edges dist heap prev est lj).dist.getD n 0 =
        dist.getD n 0 := by
  induction edges generalizing dist heap prev est lj with
  | nil => intro n hn; exact ⟨hn, rfl⟩
  | cons e rest ih =>
    obtain ⟨neighbor, weight⟩ := e
    intro n hn
    simp only [discoverAux] at hn ⊢
    by_cases hlt : satAdd (dist.getD node 0) weight < dist.getD neighbor 0
    · simp only [hlt, if_true] at hn ⊢
      have hpd1 : (prev.set neighbor (some node)).length
          = (dist.set neighbor (satAdd (dist.getD node 0) weight)).length := by
        simp [hpd]
      obtain ⟨h1, h2⟩ := ih _ _ _ _ _ hpd1 n hn
      by_cases hne : neighbor = n
      · subst hne
        rw [getD_set_self (some node) none
          (by rw [hpd]; exact guard_lt_length hlt)] at h1
        simp at h1
      · rw [getD_set_ne (some node) none hne] at h1
        rw [getD_set_ne _ _ hne] at h2
        exact ⟨h1, h2⟩
    · simp only [hlt, if_false] at hn ⊢
      exact ih _ _ _ _ _ hpd n hn

theorem heapPop_mem_rest_of_ne {h : List HeapEntry} {e x : HeapEntry}
    {rest : List HeapEntry} (hp : heapPop h = some (e, rest)) (hx : x ∈ h)
    (hne : x ≠ e) : x ∈ rest := by
  have := (heapPop_perm hp).mem_iff.mp hx
  rcases List.mem_cons.mp this with h1 | h1
  · exact absurd h1 hne
  · exact h1

theorem exists_isShortest {g : Graph} {u v : Nat} (hr : Reachable g u v) :
    ∃ d, IsShortest g u v d := by
  classical
  have hne : {c | CostReach g u v c}.Nonempty := hr
  refine ⟨sInf {c | CostReach g u v c}, Nat.sInf_mem hne, ?_⟩
  intro c hc
  exact Nat.sInf_le hc

theorem isShortest_unique {g : Graph} {u v c1 c2 : Nat}
    (h1 : IsShortest g u v c1) (h2 : IsShortest g u v c2) : c1 = c2 :=
  le_antisymm (h1.2 _ h2.1) (h2.2 _ h1.1)

/-- Walks over the derived reverse graph are exactly reversed walks over the
forward graph, with the same cost. -/
theorem costReach_rev_mp {g : Graph} (hwf : WellFormed g) {u v c : Nat}
    (h : CostReach (reverse_adj_list g) u v c) : CostReach g v u c := by
  induction h with
  | refl => exact CostReach.refl _
  | tail nb w hprev hmem ih =>
    have hfwd := (mem_reverse_adj_list hwf).mp hmem
    rw [Nat.add_comm]
    exact CostReach_head hfwd ih

theorem costReach_rev_mpr {g : Graph} (hwf : WellFormed g) {u v c : Nat}
    (h : CostReach g v u c) : CostReach (reverse_adj_list g) u v c := by
  induction h with
  | refl => exact CostReach.refl _
  | tail nb w hprev hmem ih =>
    have hrev := (mem_reverse_adj_list hwf).mpr hmem
    rw [Nat.add_comm]
    exact CostReach_head hrev ih

theorem wellFormedD_of_wellFormed {g : Graph} (hwf : WellFormed g) :
    WellFormedD g := by
  intro v e he
  exact hwf _ (getD_mem_self g v (mem_getD_bound he)) _ he

theorem wellFormedD_rev {g : Graph} (hwf : WellFormed g) :
    WellFormedD (reverse_adj_list g) := by
  intro v e he
  obtain ⟨u, w⟩ := e
  have hfwd := (mem_reverse_adj_list hwf).mp he
  constructor
  · rw [reverse_adj_list_length]
    exact mem_getD_bound hfwd
  · exact (hwf _ (getD_mem_self g u (mem_getD_bound hfwd)) _ hfwd).2

/-!  Core Dijkstra arguments: the heap minimum bounds every walk cost to an
unsettled node, so a popped unsettled node carries its exact shortest
distance. -/

theorem sideInv_min_le {h : Graph} {src : Nat} {dist : List Nat}
    {heap : List HeapEntry} {prev : List (Option Nat)} {S : List Nat}
    (hwfd : WellFormedD h) (inv : SideInv h src dist heap prev S)
    {c : Nat} (hminH : ∀ e ∈ heap, c ≤ (Prod.fst e)) (hcM : c < USIZE_MAX) :
    ∀ x cx, CostReach h src x cx → x ∉ S → c ≤ cx := by
  intro x cx hwalk
  induction hwalk with
  | refl =>
    intro hnot
    have hfin : dist.getD src 0 < USIZE_MAX := by
      rw [inv.hsrc]
      omega
    have hop := inv.hopen src inv.hsrclt hnot hfin
    have hle : c ≤ dist.getD src 0 := hminH _ hop
    rw [inv.hsrc] at hle
    exact hle
  | tail nb w hprev hmem ih =>
    intro hnot
    rename_i v cv
    have hvlt : v < h.length := mem_getD_bound hmem
    have hnblt : nb < h.length := (hwfd v _ hmem).1
    by_cases hvS : v ∈ S
    · have hdv : dist.getD v 0 ≤ cv := (inv.hSshort v hvS).2 _ hprev
      have hrel := inv.hSrelax v hvS nb w hmem
      by_cases hsat : satAdd (dist.getD v 0) w < USIZE_MAX
      · have hfin : dist.getD nb 0 < USIZE_MAX := by omega
        by_cases hnbS : nb ∈ S
        · exact absurd hnbS hnot
        · have hop := inv.hopen nb hnblt hnbS hfin
          have hle : c ≤ dist.getD nb 0 := hminH _ hop
          have hplain := satAdd_le_add (dist.getD v 0) w
          omega
      · have : USIZE_MAX ≤ dist.getD v 0 + w := by
          unfold satAdd at hsat
          omega
        omega
    · have := ih hvS
      omega

theorem sideInv_pop_settles {h : Graph} {src : Nat} {dist : List Nat}
    {heap : List HeapEntry} {prev : List (Option Nat)} {S : List Nat}
    (hwfd : WellFormedD h) (inv : SideInv h src dist heap prev S)
    {c p : Nat} {rest : List HeapEntry}
    (hpop : heapPop heap = some ((c, p), rest)) (hnot : p ∉ S) :
    c = dist.getD p 0 ∧ IsShortest h src p c := by
  have hmem := heapPop_mem hpop
  obtain ⟨hplt, hcM, hdlec, hgen⟩ := inv.hheap _ hmem
  have hplt' : p < h.length := hplt
  have hcM' : c < USIZE_MAX := hcM
  have hdlec' : dist.getD p 0 ≤ c := hdlec
  have hgen' : CostReach h src p c := hgen
  have hmin := heapPop_min hpop
  have hdfin : dist.getD p 0 < USIZE_MAX := by omega
  have hop := inv.hopen p hplt' hnot hdfin
  have hle : c ≤ dist.getD p 0 := hmin _ hop
  have hceq : c = dist.getD p 0 := by omega
  refine ⟨hceq, hgen', ?_⟩
  intro cx hcx
  exact sideInv_min_le hwfd inv (fun e he => hmin e he) hcM' _ _ hcx hnot

/-- A popped entry that is stale (or a re-popped settled node) belongs to a
settled node. -/
theorem sideInv_pop_settled_of_stale {h : Graph} {src : Nat} {dist : List Nat}
    {heap : List HeapEntry} {prev : List (Option Nat)} {S : List Nat}
    (hwfd : WellFormedD h) (inv : SideInv h src dist heap prev S)
    {c p : Nat} {rest : List HeapEntry}
    (hpop : heapPop heap = some ((c, p), rest))
    (hstale : dist.getD p 0 < c) : p ∈ S := by
  by_contra hnot
  have := (sideInv_pop_settles hwfd inv hpop hnot).1
  omega

/-- Relaxing the edges of an already-settled node changes nothing in the
distance table, the heap or the predecessor table. -/
theorem discoverAux_noop (node : Nat) (other : List Nat)
    (edges : List (Nat × Nat)) (dist : List Nat) (heap : List HeapEntry)
    (prev : List (Option Nat)) (est : Nat) (lj : Option Nat) :
    (∀ nb w, (nb, w) ∈ edges →
      dist.getD nb 0 ≤ satAdd (dist.getD node 0) w) →
    (discoverAux node other edges dist heap prev est lj).dist = dist ∧
    (discoverAux node other edges dist heap prev est lj).heap = heap ∧
    (discoverAux node other edges dist heap prev est lj).prev = prev := by
  induction edges generalizing est lj with
  | nil => exact fun _ => ⟨rfl, rfl, rfl⟩
  | cons e rest ih =>
    intro hrel
    obtain ⟨neighbor, weight⟩ := e
    simp only [discoverAux]
    have hlt : ¬ satAdd (dist.getD node 0) weight < dist.getD neighbor 0 := by
      have := hrel neighbor weight (List.mem_cons_self _ _)
      omega
    simp only [hlt, if_false]
    exact ih _ _ (fun nb w hm => hrel nb w (List.mem_cons_of_mem _ hm))

/-- Dropping a stale popped entry (one whose cost exceeds the recorded
distance) keeps the per-side invariant with the same settled list. -/
theorem sideInv_stale {h : Graph} {src : Nat} {dist : List Nat}
    {heap : List HeapEntry} {prev : List (Option Nat)} {S : List Nat}
    (inv : SideInv h src dist heap prev S) {c p : Nat} {rest : List HeapEntry}
    (hpop : heapPop heap = some ((c, p), rest)) (hstale : dist.getD p 0 < c) :
    SideInv h src dist rest prev S := by
  refine ⟨inv.hsrclt, inv.hlen, inv.hplen, inv.hmax, inv.hsrc, inv.hSbound,
    inv.hSnodup, inv.hSshort, inv.hSfin, inv.hSrelax, ?_, ?_, inv.hfin,
    inv.hprev, inv.hprevIdx, inv.hroot⟩
  · intro n hn hnS hfinN
    have hold := inv.hopen n hn hnS hfinN
    refine heapPop_mem_rest_of_ne hpop hold ?_
    intro hEq
    have h1 : dist.getD n 0 = c := congrArg Prod.fst hEq
    have h2 : n = p := congrArg Prod.snd hEq
    rw [h2] at h1
    omega
  · intro e he
    exact inv.hheap e ((heapPop_perm hpop).mem_iff.mpr (List.mem_cons_of_mem _ he))

/-- When the frontier is exhausted, every walk of representable cost ends in
a settled node whose recorded distance is at most the walk cost. -/
theorem sideInv_exhausted {h : Graph} {src : Nat} {dist : List Nat}
    {prev : List (Option Nat)} {S : List Nat} (hwfd : WellFormedD h)
    (inv : SideInv h src dist [] prev S) :
    ∀ x cx, CostReach h src x cx → cx < USIZE_MAX →
      x ∈ S ∧ dist.getD x 0 ≤ cx := by
  intro x cx hwalk
  induction hwalk with
  | refl =>
    intro _
    have hsrcS : src ∈ S := by
      by_contra hns
      have := inv.hopen src inv.hsrclt hns (by rw [inv.hsrc]; omega)
      exact absurd this (List.not_mem_nil _)
    exact ⟨hsrcS, le_of_eq inv.hsrc⟩
  | tail nb w hpv hedge ih =>
    intro hcxM
    rename_i v cv
    have hcv : cv < USIZE_MAX := by omega
    obtain ⟨hvS, hdv⟩ := ih hcv
    have hnblt : nb < h.length := (hwfd v _ hedge).1
    have hrel := inv.hSrelax v hvS nb w hedge
    have hplain := satAdd_le_add (dist.getD v 0) w
    have hdnb : dist.getD nb 0 ≤ cv + w := by omega
    have hnbS : nb ∈ S := by
      by_contra hns
      have := inv.hopen nb hnblt hns (by omega)
      exact absurd this (List.not_mem_nil _)
    exact ⟨hnbS, hdnb⟩

/-- One frontier advance preserves the per-side invariant: pop the heap
minimum and relax the popped node's edge list.  The settled list either
stays (the popped node was already settled) or grows by exactly the popped
node; in both cases every new settled node is the popped one. -/
theorem sideInv_step {h : Graph} {src : Nat} {other dist : List Nat}
    {heap : List HeapEntry} {prev : List (Option Nat)} {S : List Nat}
    (hwfd : WellFormedD h) (inv : SideInv h src dist heap prev S)
    {c p : Nat} {rest : List HeapEntry}
    (hpop : heapPop heap = some ((c, p), rest))
    (est : Nat) (lj : Option Nat) (hestM : est ≤ USIZE_MAX) :
    ∃ S', SideInv h src
      (discoverAux p other (h.getD p []) dist rest prev est lj).dist
      (discoverAux p other (h.getD p []) dist rest prev est lj).heap
      (discoverAux p other (h.getD p []) dist rest prev est lj).prev S' ∧
      (∀ n ∈ S', n ∈ S ∨ n = p) := by
  have hmemHp := heapPop_mem hpop
  have hplt : p < h.length := (inv.hheap _ hmemHp).1
  have hcM : c < USIZE_MAX := (inv.hheap _ hmemHp).2.1
  have hdlec : dist.getD p 0 ≤ c := (inv.hheap _ hmemHp).2.2.1
  have hrestH : ∀ e ∈ rest, e ∈ heap := fun e he =>
    (heapPop_perm hpop).mem_iff.mpr (List.mem_cons_of_mem _ he)
  by_cases hpS : p ∈ S
  · obtain ⟨hd, hhp, hq⟩ := discoverAux_noop p other (h.getD p []) dist rest prev
      est lj (fun nb w hm => inv.hSrelax p hpS nb w hm)
    refine ⟨S, ?_, fun n hn => Or.inl hn⟩
    rw [hd, hhp, hq]
    refine ⟨inv.hsrclt, inv.hlen, inv.hplen, inv.hmax, inv.hsrc, inv.hSbound,
      inv.hSnodup, inv.hSshort, inv.hSfin, inv.hSrelax, ?_, ?_, inv.hfin,
      inv.hprev, inv.hprevIdx, inv.hroot⟩
    · intro n hn hnS hfinN
      have hold := inv.hopen n hn hnS hfinN
      refine heapPop_mem_rest_of_ne hpop hold ?_
      intro hEq
      have h2 : n = p := congrArg Prod.snd hEq
      rw [h2] at hnS
      exact hnS hpS
    · intro e he
      exact inv.hheap e (hrestH e he)
  · obtain ⟨hceq, hshort⟩ := sideInv_pop_settles hwfd inv hpop hpS
    have hdpfin : dist.getD p 0 < USIZE_MAX := by omega
    have hgenp : dist.getD p 0 < USIZE_MAX →
        CostReach h src p (dist.getD p 0) := inv.hfin p hplt
    have hstableS : ∀ n ∈ S,
        (discoverAux p other (h.getD p []) dist rest prev est lj).dist.getD n 0 =
          dist.getD n 0 := fun n hnS =>
      discoverAux_stable_min h src p other (h.getD p []) dist rest prev est lj
        inv.hmax (fun _ _ hm => hm) hgenp n (fun cx hcx => (inv.hSshort n hnS).2 cx hcx)
    have hstableP :
        (discoverAux p other (h.getD p []) dist rest prev est lj).dist.getD p 0 =
          dist.getD p 0 :=
      discoverAux_node_stable p other (h.getD p []) dist rest prev est lj inv.hmax
    have hmono : ∀ n,
        (discoverAux p other (h.getD p []) dist rest prev est lj).dist.getD n 0 ≤
          dist.getD n 0 :=
      discoverAux_dist_mono p other (h.getD p []) dist rest prev est lj
    have hrelaxp := discoverAux_relaxed p other (h.getD p []) dist rest prev est lj
      inv.hmax
    have hmaxR := (discoverAux_satBound p other (h.getD p []) dist rest prev est lj
      inv.hmax (fun e he => le_of_lt ((inv.hheap e (hrestH e he)).2.1)) hestM).1
    have hlenR : (discoverAux p other (h.getD p []) dist rest prev est lj).dist.length
        = h.length := by
      rw [discoverAux_dist_length]; exact inv.hlen
    have hplenR : (discoverAux p other (h.getD p []) dist rest prev est lj).prev.length
        = h.length := by
      rw [discoverAux_prev_length]; exact inv.hplen
    have hgenR := discoverAux_genuine h src p other (h.getD p []) dist rest prev
      est lj inv.hmax inv.hlen (fun _ _ hm => hm) inv.hfin
    have hpd : prev.length = dist.length := inv.hplen.trans inv.hlen.symm
    refine ⟨S ++ [p], ?_, ?_⟩
    · refine ⟨inv.hsrclt, hlenR, hplenR, hmaxR, ?_, ?_, ?_, ?_, ?_, ?_, ?_, ?_,
        hgenR, ?_, ?_, ?_⟩
      · -- the source distance stays zero
        have := hmono src
        rw [inv.hsrc] at this
        omega
      · intro n hn
        rcases List.mem_append.mp hn with hn | hn
        · exact inv.hSbound n hn
        · rw [List.mem_singleton.mp hn]; exact hplt
      · refine List.Nodup.append inv.hSnodup (List.nodup_singleton p) ?_
        intro a haS hap
        rw [List.mem_singleton.mp hap] at haS
        exact hpS haS
      · intro n hn
        rcases List.mem_append.mp hn with hn | hn
        · rw [hstableS n hn]; exact inv.hSshort n hn
        · rw [List.mem_singleton.mp hn, hstableP, ← hceq]
          exact hceq ▸ hshort
      · intro n hn
        rcases List.mem_append.mp hn with hn | hn
        · rw [hstableS n hn]; exact inv.hSfin n hn
        · rw [List.mem_singleton.mp hn, hstableP]; exact hdpfin
      · intro n hn nb w hmem
        rcases List.mem_append.mp hn with hn | hn
        · rw [hstableS n hn]
          exact le_trans (hmono nb) (inv.hSrelax n hn nb w hmem)
        · rw [List.mem_singleton.mp hn] at hmem ⊢
          rw [hstableP]
          exact hrelaxp nb w hmem
      · -- open nodes keep a heap entry at their recorded distance
        intro n hn hnS hfinN
        by_cases hchg : (discoverAux p other (h.getD p []) dist rest prev est
            lj).dist.getD n 0 = dist.getD n 0
        · have hnS' : n ∉ S := fun hmem => hnS (List.mem_append.mpr (Or.inl hmem))
          have hnp : n ≠ p := fun hEq =>
            hnS (List.mem_append.mpr (Or.inr (by rw [hEq]; exact List.mem_singleton_self p)))
          rw [hchg] at hfinN ⊢
          have hold := inv.hopen n hn hnS' hfinN
          have hinrest : (dist.getD n 0, n) ∈ rest := by
            refine heapPop_mem_rest_of_ne hpop hold ?_
            intro hEq
            exact hnp (congrArg Prod.snd hEq)
          exact discoverAux_heap_grows p other (h.getD p []) dist rest prev est lj
            _ hinrest
        · exact discoverAux_open p other (h.getD p []) dist rest prev est lj n hchg
      · exact discoverAux_heap_sound h src p other (h.getD p []) dist rest prev
          est lj inv.hmax inv.hlen (fun _ _ hm => hm) inv.hfin
          (fun e he => inv.hheap e (hrestH e he))
      · -- predecessor entries point to settled parents with exact relaxations
        intro n q hn hq
        rcases discoverAux_prev_some p other (h.getD p []) dist rest prev est lj
          inv.hmax hpd n q hq with ⟨hold, hsame⟩ | ⟨hqp, w, hwmem, heq, hltM, _⟩
        · obtain ⟨hqS, w, hwmem, hrel, hfinN⟩ := inv.hprev n q hn hold
          refine ⟨List.mem_append.mpr (Or.inl hqS), w, hwmem, ?_, ?_⟩
          · rw [hsame, hstableS q hqS]; exact hrel
          · rw [hsame]; exact hfinN
        · rw [hqp]
          refine ⟨List.mem_append.mpr (Or.inr (List.mem_singleton_self p)), w,
            hwmem, ?_, hltM⟩
          rw [heq, hstableP]
      · -- settlement order strictly decreases along predecessor links
        intro n q hq hn
        have hnlt : n < h.length := by
          rcases List.mem_append.mp hn with hn' | hn'
          · exact inv.hSbound n hn'
          · rw [List.mem_singleton.mp hn']; exact hplt
        rcases discoverAux_prev_some p other (h.getD p []) dist rest prev est lj
          inv.hmax hpd n q hq with ⟨hold, _⟩ | ⟨hqp, w, hwmem, heq, hltM, hdecr⟩
        · have hqS : q ∈ S := (inv.hprev n q hnlt hold).1
          rcases List.mem_append.mp hn with hn' | hn'
          · rw [List.indexOf_append_of_mem hqS, List.indexOf_append_of_mem hn']
            exact inv.hprevIdx n q hold hn'
          · have hnp := List.mem_singleton.mp hn'
            subst hnp
            rw [List.indexOf_append_of_mem hqS, List.indexOf_append_of_not_mem hpS]
            have := List.indexOf_lt_length.mpr hqS
            omega
        · exfalso
          rcases List.mem_append.mp hn with hn' | hn'
          · have hmin := (inv.hSshort n hn').2 _ (hgenR n hnlt hltM)
            omega
          · rw [List.mem_singleton.mp hn'] at hdecr
            rw [hstableP] at hdecr
            omega
      · intro n hn hnone hfinN
        obtain ⟨hold, hsame⟩ := discoverAux_prev_none p other (h.getD p []) dist
          rest prev est lj hpd n hnone
        rw [hsame] at hfinN
        exact inv.hroot n hn hold hfinN
    · intro n hn
      rcases List.mem_append.mp hn with hn | hn
      · exact Or.inl hn
      · exact Or.inr (List.mem_singleton.mp hn)

/-- Evolution of the estimate and join node through one `discover_nodes`
call, stated once for both directions: `dist` is the distance table of the
advancing side, `other` the (read-only) table of the opposite side, `F n c`
the genuineness predicate of the advancing side and `R n c` that of the
opposite side, composing to a start-to-goal walk cost.  Under the estimate
invariants, a best-total update can only fire together with the distance
improvement of the same neighbor, so the recorded join stays exact. -/
theorem discoverAux_estInv (g : Graph) (start goal : Nat)
    (F R : Nat → Nat → Prop)
    (node : Nat) (other : List Nat) (edges : List (Nat × Nat))
    (dist : List Nat) (heap : List HeapEntry) (prev : List (Option Nat))
    (est : Nat) (lj : Option Nat)
    (hmax : ∀ x ∈ dist, x ≤ USIZE_MAX)
    (homax : ∀ x ∈ other, x ≤ USIZE_MAX)
    (hnodelt : node < g.length)
    (hedlt : ∀ nb w, (nb, w) ∈ edges → nb < g.length)
    (hext : ∀ nb w c, (nb, w) ∈ edges → F node c → F nb (c + w))
    (hgenF : ∀ n, n < g.length → dist.getD n 0 < USIZE_MAX → F n (dist.getD n 0))
    (hgenR : ∀ n, n < g.length → other.getD n 0 < USIZE_MAX → R n (other.getD n 0))
    (hcomp : ∀ n c1 c2, F n c1 → R n c2 → CostReach g start goal (c1 + c2))
    (hestMax : est ≤ USIZE_MAX)
    (hestGen : est < USIZE_MAX → CostReach g start goal est)
    (hestLe : ∀ n, n < g.length → dist.getD n 0 < USIZE_MAX →
      other.getD n 0 < USIZE_MAX → est ≤ dist.getD n 0 + other.getD n 0)
    (hjoin : ∀ j, lj = some j → j < g.length ∧ dist.getD j 0 < USIZE_MAX ∧
      other.getD j 0 < USIZE_MAX ∧ est = dist.getD j 0 + other.getD j 0)
    (hjoinNone : lj = none → est = USIZE_MAX) :
    (discoverAux node other edges dist heap prev est lj).estimate ≤ USIZE_MAX ∧
    ((discoverAux node other edges dist heap prev est lj).estimate < USIZE_MAX →
      CostReach g start goal
        (discoverAux node other edges dist heap prev est lj).estimate) ∧
    (∀ n, n < g.length →
      (discoverAux node other edges dist heap prev est lj).dist.getD n 0 <
        USIZE_MAX →
      other.getD n 0 < USIZE_MAX →
      (discoverAux node other edges dist heap prev est lj).estimate ≤
        (discoverAux node other edges dist heap prev est lj).dist.getD n 0 +
          other.getD n 0) ∧
    (∀ j, (discoverAux node other edges dist heap prev est lj).local_join =
        some j →
      j < g.length ∧
      (discoverAux node other edges dist heap prev est lj).dist.getD j 0 <
        USIZE_MAX ∧
      other.getD j 0 < USIZE_MAX ∧
      (discoverAux node other edges dist heap prev est lj).estimate =
        (discoverAux node other edges dist heap prev est lj).dist.getD j 0 +
          other.getD j 0) ∧
    ((discoverAux node other edges dist heap prev est lj).local_join = none →
      (discoverAux node other edges dist heap prev est lj).estimate =
        USIZE_MAX) := by
  induction edges generalizing dist heap prev est lj with
  | nil => exact ⟨hestMax, hestGen, hestLe, hjoin, hjoinNone⟩
  | cons e rest ih =>
    obtain ⟨neighbor, weight⟩ := e
    have hnblt : neighbor < g.length := hedlt neighbor weight (List.mem_cons_self _ _)
    have hdnodeM : dist.getD node 0 ≤ USIZE_MAX := getD_le_max hmax node
    have honb : other.getD neighbor 0 ≤ USIZE_MAX := getD_le_max homax neighbor
    have hdnbM : dist.getD neighbor 0 ≤ USIZE_MAX := getD_le_max hmax neighbor
    have hsatp := satAdd_le_add (dist.getD node 0) weight
    have hext1 : ∀ nb w c, (nb, w) ∈ rest → F node c → F nb (c + w) :=
      fun nb w c hm => hext nb w c (List.mem_cons_of_mem _ hm)
    have hedlt1 : ∀ nb w, (nb, w) ∈ rest → nb < g.length :=
      fun nb w hm => hedlt nb w (List.mem_cons_of_mem _ hm)
    simp only [discoverAux]
    by_cases hlt : satAdd (dist.getD node 0) weight < dist.getD neighbor 0
    · -- The distance guard fires: the neighbor's entry improves.
      have hncM : satAdd (dist.getD node 0) weight < USIZE_MAX := by omega
      have hdnodeF : dist.getD node 0 < USIZE_MAX := by
        have := le_satAdd_left (b := weight) hdnodeM
        omega
      have hplain : satAdd (dist.getD node 0) weight =
          dist.getD node 0 + weight := satAdd_eq_add (satAdd_lt_max hncM)
      have hFnb : F neighbor (satAdd (dist.getD node 0) weight) := by
        rw [hplain]
        exact hext neighbor weight _ (List.mem_cons_self _ _)
          (hgenF node hnodelt hdnodeF)
      have hnbD : neighbor < dist.length := guard_lt_length hlt
      have hmax1 := set_max_preserve (i := neighbor)
        (v := satAdd (dist.getD node 0) weight) hmax (satAdd_le_max _ _)
      have hgenF1 : ∀ n, n < g.length →
          (dist.set neighbor (satAdd (dist.getD node 0) weight)).getD n 0 <
            USIZE_MAX →
          F n ((dist.set neighbor (satAdd (dist.getD node 0) weight)).getD n 0) := by
        intro n hn hval
        by_cases hne : neighbor = n
        · subst hne
          rw [getD_set_self _ _ hnbD] at hval ⊢
          exact hFnb
        · rw [getD_set_ne _ _ hne] at hval ⊢
          exact hgenF n hn hval
      simp only [hlt, if_true]
      by_cases hcand : other.getD neighbor 0 ≠ USIZE_MAX ∧
          satAdd (satAdd (dist.getD node 0) weight) (other.getD neighbor 0) < est
      · -- The best-total guard also fires: the join moves to this neighbor.
        have honbF : other.getD neighbor 0 < USIZE_MAX := by
          rcases lt_or_eq_of_le honb with hlt' | heq'
          · exact hlt'
          · exact absurd heq' hcand.1
        have hsatc := satAdd_le_add (satAdd (dist.getD node 0) weight)
          (other.getD neighbor 0)
        have hestM1 : satAdd (satAdd (dist.getD node 0) weight)
            (other.getD neighbor 0) < USIZE_MAX := by omega
        have hcplain : satAdd (satAdd (dist.getD node 0) weight)
            (other.getD neighbor 0) =
            satAdd (dist.getD node 0) weight + other.getD neighbor 0 :=
          satAdd_eq_add (satAdd_lt_max (by omega))
        rw [if_pos hcand, if_pos hcand]
        refine ih _ _ _ _ _ hmax1 hedlt1 hext1 hgenF1 (satAdd_le_max _ _)
          ?_ ?_ ?_ ?_
        · intro hfin
          rw [hcplain]
          exact hcomp neighbor _ _ hFnb (hgenR neighbor hnblt honbF)
        · intro n hn h1 h2
          by_cases hne : neighbor = n
          · subst hne
            rw [getD_set_self _ _ hnbD]
            exact hsatc
          · rw [getD_set_ne _ _ hne] at h1
            have := hestLe n hn h1 h2
            rw [getD_set_ne _ _ hne]
            omega
        · intro j hj
          rw [Option.some_inj] at hj
          subst hj
          refine ⟨hnblt, ?_, honbF, ?_⟩
          · rw [getD_set_self _ _ hnbD]
            omega
          · rw [getD_set_self _ _ hnbD]
            exact hcplain
        · intro hj
          exact absurd hj (by simp)
      · -- Distance improves but the best-total guard does not fire.
        rw [if_neg hcand, if_neg hcand]
        refine ih _ _ _ _ _ hmax1 hedlt1 hext1 hgenF1 hestMax hestGen ?_ ?_
          hjoinNone
        · intro n hn h1 h2
          by_cases hne : neighbor = n
          · subst hne
            rw [getD_set_self _ _ hnbD] at h1 ⊢
            have honbne : other.getD neighbor 0 ≠ USIZE_MAX := by omega
            have hge : ¬ satAdd (satAdd (dist.getD node 0) weight)
                (other.getD neighbor 0) < est := by
              intro hcon
              exact hcand ⟨honbne, hcon⟩
            have := satAdd_le_add (satAdd (dist.getD node 0) weight)
              (other.getD neighbor 0)
            omega
          · rw [getD_set_ne _ _ hne] at h1 ⊢
            exact hestLe n hn h1 h2
        · intro j hj
          obtain ⟨hjlt, hjfin, hjofin, hjeq⟩ := hjoin j hj
          have hne : neighbor ≠ j := by
            intro hEq
            subst hEq
            have honbne : other.getD neighbor 0 ≠ USIZE_MAX := by omega
            have hsatc := satAdd_le_add (satAdd (dist.getD node 0) weight)
              (other.getD neighbor 0)
            exact hcand ⟨honbne, by omega⟩
          refine ⟨hjlt, ?_, hjofin, ?_⟩
          · rw [getD_set_ne _ _ hne]
            exact hjfin
          · rw [getD_set_ne _ _ hne]
            exact hjeq
    · -- The distance guard fails: under the invariants the best-total guard
      -- cannot fire either, so nothing changes for this edge.
      have hcand : ¬ (other.getD neighbor 0 ≠ USIZE_MAX ∧
          satAdd (satAdd (dist.getD node 0) weight) (other.getD neighbor 0) <
            est) := by
        rintro ⟨hne, hclt⟩
        have honbF : other.getD neighbor 0 < USIZE_MAX := by
          rcases lt_or_eq_of_le honb with h' | h'
          · exact h'
          · exact absurd h' hne
        have hsatc := satAdd_le_add (satAdd (dist.getD node 0) weight)
          (other.getD neighbor 0)
        have hcM : satAdd (satAdd (dist.getD node 0) weight)
            (other.getD neighbor 0) < USIZE_MAX := by omega
        have hncM : satAdd (dist.getD node 0) weight < USIZE_MAX := by
          unfold satAdd at hcM ⊢
          omega
        have hdnbF : dist.getD neighbor 0 < USIZE_MAX := by omega
        have := hestLe neighbor hnblt hdnbF honbF
        have hcplain : satAdd (satAdd (dist.getD node 0) weight)
            (other.getD neighbor 0) =
            satAdd (dist.getD node 0) weight + other.getD neighbor 0 :=
          satAdd_eq_add (satAdd_lt_max hcM)
        omega
      rw [if_neg hlt, if_neg hcand, if_neg hcand]
      exact ih _ _ _ _ _ hmax hedlt1 hext1 hgenF hestMax hestGen hestLe hjoin
        hjoinNone

/-- The per-side invariant holds for the initial tables of either search
direction (and of `sequential_dijkstra`): source distance zero, all other
distances infinite, one heap entry, no predecessors, nothing settled. -/
theorem sideInit (h : Graph) (src : Nat) (hsrc : src < h.length) :
    SideInv h src ((List.replicate h.length USIZE_MAX).set src 0) [(0, src)]
      (List.replicate h.length none) [] := by
  have hlen : ((List.replicate h.length USIZE_MAX).set src 0).length = h.length := by
    simp
  have hget : ∀ n, n < h.length → n ≠ src →
      ((List.replicate h.length USIZE_MAX).set src 0).getD n 0 = USIZE_MAX := by
    intro n hn hne
    rw [getD_set_ne 0 0 (fun hEq => hne hEq.symm), getD_replicate _ _ hn]
  have hget0 : ((List.replicate h.length USIZE_MAX).set src 0).getD src 0 = 0 :=
    getD_set_self 0 0 (by simpa using hsrc)
  refine ⟨hsrc, hlen, by simp, ?_, hget0, ?_, List.nodup_nil, ?_, ?_, ?_, ?_,
    ?_, ?_, ?_, ?_, ?_⟩
  · intro x hx
    rcases List.mem_or_eq_of_mem_set hx with hx | hx
    · rw [List.eq_of_mem_replicate hx]
    · omega
  · intro n hn
    simp at hn
  · intro n hn
    simp at hn
  · intro n hn
    simp at hn
  · intro n hn
    simp at hn
  · intro n hn _ hfinN
    by_cases hne : n = src
    · subst hne
      rw [hget0]
      exact List.mem_singleton_self _
    · rw [hget n hn hne] at hfinN
      omega
  · intro e he
    rw [List.mem_singleton.mp he]
    refine ⟨hsrc, by unfold USIZE_MAX; omega, ?_, CostReach.refl src⟩
    rw [hget0]
  · intro n hn hfinN
    by_cases hne : n = src
    · subst hne
      rw [hget0]
      exact CostReach.refl _
    · rw [hget n hn hne] at hfinN
      omega
  · intro n q hn hq
    rw [getD_replicate none none hn] at hq
    cases hq
  · intro n q hq hn
    simp at hn
  · intro n hn _ hfinN
    by_contra hne
    rw [hget n hn hne] at hfinN
    omega

/-- The combined invariant holds for the initial bidirectional state. -/
theorem bidiInit_bidiInv {g : Graph} {start goal : Nat} (hwf : WellFormed g)
    (hstart : start < g.length) (hgoal : goal < g.length)
    (hne : start ≠ goal) :
    BidiInv g start goal (bidiInit g.length start goal) := by
  have hrlen : (reverse_adj_list g).length = g.length := reverse_adj_list_length g
  refine ⟨[], [], sideInit g start hstart, ?_, ?_⟩
  · have := sideInit (reverse_adj_list g) goal (by rw [hrlen]; exact hgoal)
    rw [hrlen] at this
    exact this
  · have hE : EstInv g start goal
        ((List.replicate g.length USIZE_MAX).set start 0)
        ((List.replicate g.length USIZE_MAX).set goal 0) USIZE_MAX none := by
      refine ⟨le_rfl, ?_, ?_, ?_, fun _ => rfl⟩
      · intro hlt
        exact absurd hlt (lt_irrefl _)
      · intro n hn h1 h2
        by_cases hns : n = start
        · have hng : ¬ goal = n := fun hEq => hne (by omega)
          rw [getD_set_ne 0 0 hng, getD_replicate _ _ hn] at h2
          omega
        · have hns' : ¬ start = n := fun hEq => hns hEq.symm
          rw [getD_set_ne 0 0 hns', getD_replicate _ _ hn] at h1
          omega
      · intro j hj
        cases hj
    exact hE

/-- The loop body preserves the combined bidirectional invariant. -/
theorem bidiStep_bidiInv {g : Graph} {start goal : Nat} (hwf : WellFormed g)
    {s : BidiState} (hinv : BidiInv g start goal s) :
    BidiInv g start goal (bidiStep g (reverse_adj_list g) s) := by
  obtain ⟨SF, SB, invF, invB, E⟩ := hinv
  have hwfd := wellFormedD_of_wellFormed hwf
  have hwfdR := wellFormedD_rev hwf
  have hrlen : (reverse_adj_list g).length = g.length := reverse_adj_list_length g
  unfold bidiStep
  cases hF : heapPop s.heap_fwd with
  | none =>
    simp only [hF]
    exact ⟨SF, SB, invF, invB, E⟩
  | some pF =>
    cases hB : heapPop s.heap_bwd with
    | none =>
      simp only [hF, hB]
      exact ⟨SF, SB, invF, invB, E⟩
    | some pB =>
      obtain ⟨⟨cf, pf⟩, restF⟩ := pF
      obtain ⟨⟨cb, pb⟩, restB⟩ := pB
      simp only [hF, hB]
      by_cases hbrk : s.estimate ≤ wrapAdd cf cb
      · simp only [hbrk, if_true]
        exact ⟨SF, SB, invF, invB, E⟩
      · simp only [hbrk, if_false]
        by_cases hfb : cf < cb
        · -- forward frontier advances
          simp only [hfb, if_true]
          obtain ⟨SF', hSF', _⟩ := sideInv_step hwfd invF hF s.estimate
            s.join_node E.hestMax
          have hpflt : pf < g.length := (invF.hheap _ (heapPop_mem hF)).1
          have hEst := discoverAux_estInv g start goal
            (fun n c => CostReach g start n c)
            (fun n c => CostReach (reverse_adj_list g) goal n c)
            pf s.dist_bwd (g.getD pf []) s.dist_fwd restF s.prev_fwd
            s.estimate s.join_node invF.hmax invB.hmax hpflt
            (fun nb w hm => (hwfd pf _ hm).1)
            (fun nb w c hm hc => CostReach.tail nb w hc hm)
            invF.hfin
            (fun n hn hfin => invB.hfin n (by rw [hrlen]; exact hn) hfin)
            (fun n c1 c2 h1 h2 => CostReach_trans h1 (costReach_rev_mp hwf h2))
            E.hestMax E.hestGen E.hestLe E.hjoin E.hjoinNone
          unfold discover_nodes
          cases hr : (discoverAux pf s.dist_bwd (g.getD pf []) s.dist_fwd restF
              s.prev_fwd s.estimate s.join_node).local_join with
          | some j =>
            simp only [hr]
            refine ⟨SF', SB, hSF', invB, ?_⟩
            refine ⟨hEst.1, hEst.2.1, hEst.2.2.1, ?_, ?_⟩
            · intro j' hj'
              exact hEst.2.2.2.1 j' (by rw [hr]; exact hj')
            · intro hj'
              cases hj'
          | none =>
            simp only [hr]
            obtain ⟨hestEq, hljEq⟩ := discoverAux_join_none pf s.dist_bwd
              (g.getD pf []) s.dist_fwd restF s.prev_fwd s.estimate s.join_node hr
            rw [hestEq] at hEst
            refine ⟨SF', SB, hSF', invB, ?_⟩
            refine ⟨hEst.1, hEst.2.1, hEst.2.2.1, ?_, ?_⟩
            · intro j' hj'
              have hj2 : s.join_node = some j' := hj'
              rw [hljEq] at hj2
              cases hj2
            · intro _
              exact hEst.2.2.2.2 hr
        · -- backward frontier advances
          simp only [hfb, if_false]
          obtain ⟨SB', hSB', _⟩ := sideInv_step hwfdR invB hB s.estimate
            s.join_node E.hestMax
          have hpblt : pb < g.length := by
            have := (invB.hheap _ (heapPop_mem hB)).1
            rw [hrlen] at this
            exact this
          have hEst := discoverAux_estInv g start goal
            (fun n c => CostReach (reverse_adj_list g) goal n c)
            (fun n c => CostReach g start n c)
            pb s.dist_fwd ((reverse_adj_list g).getD pb []) s.dist_bwd restB
            s.prev_bwd s.estimate s.join_node invB.hmax invF.hmax hpblt
            (fun nb w hm => by
              have := (hwfdR pb _ hm).1
              rw [hrlen] at this
              exact this)
            (fun nb w c hm hc => CostReach.tail nb w hc hm)
            (fun n hn hfin => invB.hfin n (by rw [hrlen]; exact hn) hfin)
            invF.hfin
            (fun n c1 c2 h1 h2 => by
              rw [Nat.add_comm]
              exact CostReach_trans h2 (costReach_rev_mp hwf h1))
            E.hestMax E.hestGen
            (fun n hn h1 h2 => by
              rw [Nat.add_comm]
              exact E.hestLe n hn h2 h1)
            (fun j hj => by
              obtain ⟨h1, h2, h3, h4⟩ := E.hjoin j hj
              exact ⟨h1, h3, h2, by rw [Nat.add_comm]; exact h4⟩)
            E.hjoinNone
          unfold discover_nodes
          cases hr : (discoverAux pb s.dist_fwd
              ((reverse_adj_list g).getD pb []) s.dist_bwd restB s.prev_bwd
              s.estimate s.join_node).local_join with
          | some j =>
            simp only [hr]
            refine ⟨SF, SB', invF, hSB', ?_⟩
            refine ⟨hEst.1, hEst.2.1, ?_, ?_, ?_⟩
            · intro n hn h1 h2
              rw [Nat.add_comm]
              exact hEst.2.2.1 n hn h2 h1
            · intro j' hj'
              obtain ⟨h1, h2, h3, h4⟩ := hEst.2.2.2.1 j' (by rw [hr]; exact hj')
              exact ⟨h1, h3, h2, by rw [Nat.add_comm]; exact h4⟩
            · intro hj'
              cases hj'
          | none =>
            simp only [hr]
            obtain ⟨hestEq, hljEq⟩ := discoverAux_join_none pb s.dist_fwd
              ((reverse_adj_list g).getD pb []) s.dist_bwd restB s.prev_bwd
              s.estimate s.join_node hr
            rw [hestEq] at hEst
            refine ⟨SF, SB', invF, hSB', ?_⟩
            refine ⟨hEst.1, hEst.2.1, ?_, ?_, ?_⟩
            · intro n hn h1 h2
              rw [Nat.add_comm]
              exact hEst.2.2.1 n hn h2 h1
            · intro j' hj'
              have hj2 : s.join_node = some j' := hj'
              rw [hljEq] at hj2
              cases hj2
            · intro _
              exact hEst.2.2.2.2 hr

/-- The loop's final state fails the guard. -/
theorem bidiLoop_not_continue (graph rev_graph : Graph) (s : BidiState) :
    bidiContinue (bidiLoop graph rev_graph s) = false := by
  obtain ⟨n, heq, hfalse⟩ := bidiLoop_eq_iter graph rev_graph s
  rw [heq]
  exact hfalse

/-- The meeting argument for the two-frontier stop rule: when both heaps
still have entries with minima `cf` and `cb`, the estimate is at most
`cf + cb`, and a shortest start-goal walk of representable cost `dmin`
exists, the estimate is already at most `dmin`.  The walk is consumed from
the goal end: while the walk node is settled backward, its backward distance
bounds the residual; the first unsettled-backward node either meets a
settled-forward prefix (giving a both-finite meeting node) or both frontier
minima bound the split walk costs. -/
theorem bidi_meet {g : Graph} {start goal : Nat} {distF distB : List Nat}
    {heapF heapB : List HeapEntry} {prevF prevB : List (Option Nat)}
    {SF SB : List Nat} {est cf pf cb pb : Nat} {lj : Option Nat}
    {restF restB : List HeapEntry} {dmin : Nat}
    (hwf : WellFormed g)
    (invF : SideInv g start distF heapF prevF SF)
    (invB : SideInv (reverse_adj_list g) goal distB heapB prevB SB)
    (E : EstInv g start goal distF distB est lj)
    (hpopF : heapPop heapF = some ((cf, pf), restF))
    (hpopB : heapPop heapB = some ((cb, pb), restB))
    (hexit : est ≤ cf + cb)
    (hgoal : goal < g.length)
    (hdmin : IsShortest g start goal dmin) (hdminM : dmin < USIZE_MAX) :
    est ≤ dmin := by
  have hwfd := wellFormedD_of_wellFormed hwf
  have hwfdR := wellFormedD_rev hwf
  have hcfM : cf < USIZE_MAX := (invF.hheap _ (heapPop_mem hpopF)).2.1
  have hcbM : cb < USIZE_MAX := (invB.hheap _ (heapPop_mem hpopB)).2.1
  have minF : ∀ x cx, CostReach g start x cx → x ∉ SF → cf ≤ cx :=
    sideInv_min_le hwfd invF (fun e he => heapPop_min hpopF e he) hcfM
  have minB : ∀ x cx, CostReach (reverse_adj_list g) goal x cx → x ∉ SB →
      cb ≤ cx :=
    sideInv_min_le hwfdR invB (fun e he => heapPop_min hpopB e he) hcbM
  have aux : ∀ x px, CostReach g start x px →
      ∀ sx, CostReach g x goal sx → px + sx = dmin → x ∈ SB →
        distB.getD x 0 ≤ sx → est ≤ dmin := by
    intro x px hwalk
    induction hwalk with
    | refl =>
      intro sx _ hsum _ hdb
      have h1 := invF.hsrc
      have hdBfin : distB.getD start 0 < USIZE_MAX := by omega
      have hdFfin : distF.getD start 0 < USIZE_MAX := by
        rw [h1]; omega
      have := E.hestLe start invF.hsrclt hdFfin hdBfin
      omega
    | tail nb w hpv hedge ih =>
      rename_i v pv
      intro sx hres hsum hxB hdb
      have hvlt : v < g.length := mem_getD_bound hedge
      have hnblt : nb < g.length := (hwfd v _ hedge).1
      have hres' : CostReach g v goal (w + sx) := CostReach_head hedge hres
      by_cases hvB : v ∈ SB
      · have hrevEdge : (v, w) ∈ (reverse_adj_list g).getD nb [] :=
          (mem_reverse_adj_list hwf).mpr hedge
        have hrel := invB.hSrelax nb hxB v w hrevEdge
        have hplain := satAdd_le_add (distB.getD nb 0) w
        exact ih (w + sx) hres' (by omega) hvB (by omega)
      · have hcb_le : cb ≤ w + sx := minB v _ (costReach_rev_mpr hwf hres') hvB
        by_cases hvF : v ∈ SF
        · have hdFv : distF.getD v 0 ≤ pv := (invF.hSshort v hvF).2 _ hpv
          have hrelF := invF.hSrelax v hvF nb w hedge
          have hplain := satAdd_le_add (distF.getD v 0) w
          have hdFnb : distF.getD nb 0 ≤ pv + w := by omega
          have hdFnbM : distF.getD nb 0 < USIZE_MAX := by omega
          have hdBnbM : distB.getD nb 0 < USIZE_MAX := by omega
          have := E.hestLe nb hnblt hdFnbM hdBnbM
          omega
        · have hcf_le : cf ≤ pv := minF v pv hpv hvF
          omega
  by_cases hgB : goal ∈ SB
  · exact aux goal dmin hdmin.1 0 (CostReach.refl goal) (by omega) hgB
      (le_of_eq invB.hsrc)
  · have hcb0 : cb ≤ 0 := minB goal 0 (CostReach.refl goal) hgB
    by_cases hgF : goal ∈ SF
    · have hdFg : distF.getD goal 0 ≤ dmin := (invF.hSshort goal hgF).2 _ hdmin.1
      have hdFgM : distF.getD goal 0 < USIZE_MAX := by omega
      have hdBgM : distB.getD goal 0 < USIZE_MAX := by
        rw [invB.hsrc]; omega
      have := E.hestLe goal hgoal hdFgM hdBgM
      have h0 := invB.hsrc
      omega
    · have hcf_le : cf ≤ dmin := minF goal dmin hdmin.1 hgF
      omega

/-- At any state that fails the loop guard, the estimate equals the shortest
start-goal walk cost whenever that cost is representable. -/
theorem bidiExit_est {g : Graph} {start goal dmin : Nat} {s : BidiState}
    (hwf : WellFormed g) (hstart : start < g.length) (hgoal : goal < g.length)
    (hinv : BidiInv g start goal s) (hstop : bidiContinue s = false)
    (hdmin : IsShortest g start goal dmin) (hdminM : dmin < USIZE_MAX) :
    s.estimate = dmin := by
  obtain ⟨SF, SB, invF, invB, E⟩ := hinv
  have hwfd := wellFormedD_of_wellFormed hwf
  have hwfdR := wellFormedD_rev hwf
  have hle : s.estimate ≤ dmin := by
    unfold bidiContinue at hstop
    cases hF : heapPop s.heap_fwd with
    | none =>
      have hnil := heapPop_eq_none.mp hF
      rw [hnil] at invF
      obtain ⟨hgS, hdg⟩ := sideInv_exhausted hwfd invF goal dmin hdmin.1 hdminM
      have hdFgM : s.dist_fwd.getD goal 0 < USIZE_MAX := by omega
      have hdBgM : s.dist_bwd.getD goal 0 < USIZE_MAX := by
        rw [invB.hsrc]; omega
      have := E.hestLe goal hgoal hdFgM hdBgM
      have h0 := invB.hsrc
      omega
    | some pF =>
      obtain ⟨⟨cf, pf⟩, restF⟩ := pF
      cases hB : heapPop s.heap_bwd with
      | none =>
        have hnil := heapPop_eq_none.mp hB
        rw [hnil] at invB
        have hrev : CostReach (reverse_adj_list g) goal start dmin :=
          costReach_rev_mpr hwf hdmin.1
        obtain ⟨hsS, hds⟩ := sideInv_exhausted hwfdR invB start dmin hrev hdminM
        have hdBsM : s.dist_bwd.getD start 0 < USIZE_MAX := by omega
        have hdFsM : s.dist_fwd.getD start 0 < USIZE_MAX := by
          rw [invF.hsrc]; omega
        have := E.hestLe start hstart hdFsM hdBsM
        have h0 := invF.hsrc
        omega
      | some pB =>
        obtain ⟨⟨cb, pb⟩, restB⟩ := pB
        simp only [heapPeek, hF, hB, Option.map_some] at hstop
        have hwlt : ¬ wrapAdd cf cb < s.estimate := by simpa using hstop
        have hexit : s.estimate ≤ cf + cb := by
          have hmod : wrapAdd cf cb ≤ cf + cb := Nat.mod_le _ _
          omega
        exact bidi_meet hwf invF invB E hF hB hexit hgoal hdmin hdminM
  have hge : dmin ≤ s.estimate := hdmin.2 _ (E.hestGen (by omega))
  omega

/-- At any state with the invariant, if the shortest start-goal cost is not
representable (or no walk exists at all), the estimate is the sentinel. -/
theorem bidiExit_est_max {g : Graph} {start goal : Nat} {s : BidiState}
    (hinv : BidiInv g start goal s)
    (hbig : ∀ c, CostReach g start goal c → USIZE_MAX ≤ c) :
    s.estimate = USIZE_MAX := by
  obtain ⟨SF, SB, invF, invB, E⟩ := hinv
  by_contra hne
  have hlt : s.estimate < USIZE_MAX := by
    have := E.hestMax
    omega
  exact absurd (hbig _ (E.hestGen hlt)) (by omega)

/-- With the popped cost equal to the recorded distance of the popped node,
the sequential relaxation is exactly the table/heap/predecessor part of
`discover_nodes` (the estimate bookkeeping is dropped). -/
theorem seqRelax_eq_discoverAux (position cost : Nat) (other : List Nat)
    (edges : List (Nat × Nat)) (dist : List Nat) (heap : List HeapEntry)
    (prev : List (Option Nat)) (est : Nat) (lj : Option Nat)
    (hmax : ∀ x ∈ dist, x ≤ USIZE_MAX)
    (hcost : cost = dist.getD position 0) :
    seqRelax position cost edges dist heap prev =
      ((discoverAux position other edges dist heap prev est lj).dist,
       (discoverAux position other edges dist heap prev est lj).heap,
       (discoverAux position other edges dist heap prev est lj).prev) := by
  induction edges generalizing cost dist heap prev est lj with
  | nil => rfl
  | cons e rest ih =>
    obtain ⟨neighbor, weight⟩ := e
    simp only [seqRelax, discoverAux]
    rw [hcost]
    by_cases hlt : satAdd (dist.getD position 0) weight < dist.getD neighbor 0
    · simp only [hlt, if_true]
      have hpos_ne : neighbor ≠ position := by
        intro hEq
        subst hEq
        have := le_satAdd_left (b := weight) (getD_le_max hmax neighbor)
        omega
      have hstable : (dist.set neighbor
          (satAdd (dist.getD position 0) weight)).getD position 0 =
          dist.getD position 0 :=
        getD_set_ne (satAdd (dist.getD position 0) weight) 0 hpos_ne
      have hmax1 := set_max_preserve (i := neighbor)
        (v := satAdd (dist.getD position 0) weight) hmax (satAdd_le_max _ _)
      exact ih _ _ _ _ _ _ hmax1 hstable.symm
    · simp only [hlt, if_false]
      exact ih _ _ _ _ _ _ hmax rfl

/-- Cost returned by the sequential loop from any state satisfying the
invariant with the goal unsettled: the shortest walk cost when
representable, the sentinel otherwise. -/
theorem seqLoop_fst {g : Graph} {start goal dmin : Nat}
    (hwfd : WellFormedD g) (hdmin : IsShortest g start goal dmin) :
    ∀ m s S, seqMeasure s ≤ m →
      SideInv g start s.dist s.heap s.prev S → goal ∉ S →
      (seqLoop g goal s).1 =
        if dmin < USIZE_MAX then dmin else USIZE_MAX := by
  intro m
  induction m using Nat.strong_induction_on with
  | _ m ih =>
    intro s S hm inv hgS
    rw [seqLoop]
    cases hp : heapPop s.heap with
    | none =>
      simp only [hp]
      have hnil := heapPop_eq_none.mp hp
      have hbig : ¬ dmin < USIZE_MAX := by
        intro hfin
        rw [hnil] at inv
        obtain ⟨hgS', _⟩ := sideInv_exhausted hwfd inv goal dmin hdmin.1 hfin
        exact hgS hgS'
      rw [if_neg hbig]
    | some p =>
      obtain ⟨⟨cost, position⟩, rest⟩ := p
      simp only [hp]
      have hlenH := heapPop_length hp
      by_cases hpg : position = goal
      · rw [if_pos hpg]
        subst hpg
        obtain ⟨hceq, hshort⟩ := sideInv_pop_settles hwfd inv hp hgS
        have hud : cost = dmin := isShortest_unique hshort hdmin
        have hcM : cost < USIZE_MAX := (inv.hheap _ (heapPop_mem hp)).2.1
        rw [if_pos (by omega)]
        exact hud
      · rw [if_neg hpg]
        by_cases hstale : s.dist.getD position 0 < cost
        · rw [if_pos hstale]
          have inv' := sideInv_stale inv hp hstale
          have hm1 : seqMeasure { s with heap := rest } = s.dist.sum + rest.length :=
            rfl
          have hm0 : seqMeasure s = s.dist.sum + s.heap.length := rfl
          exact ih (seqMeasure { s with heap := rest }) (by omega) _ S le_rfl
            inv' hgS
        · rw [if_neg hstale]
          have hdlec : s.dist.getD position 0 ≤ cost :=
            (inv.hheap _ (heapPop_mem hp)).2.2.1
          have hceq : cost = s.dist.getD position 0 := by omega
          rw [seqRelax_eq_discoverAux position cost [] (g.getD position [])
            s.dist rest s.prev 0 none inv.hmax hceq]
          obtain ⟨S', hS', hS'sub⟩ := @sideInv_step g start [] s.dist s.heap
            s.prev S hwfd inv cost position rest hp 0 none (Nat.zero_le _)
          have hgS' : goal ∉ S' := by
            intro hmem
            rcases hS'sub goal hmem with hmem' | hmem'
            · exact hgS hmem'
            · exact hpg hmem'.symm
          have hmeas := discoverAux_measure position [] (g.getD position [])
            s.dist rest s.prev 0 none
          have hm0 : seqMeasure s = s.dist.sum + s.heap.length := rfl
          refine ih (seqMeasure
            { dist := (discoverAux position [] (g.getD position []) s.dist rest
                s.prev 0 none).dist,
              heap := (discoverAux position [] (g.getD position []) s.dist rest
                s.prev 0 none).heap,
              prev := (discoverAux position [] (g.getD position []) s.dist rest
                s.prev 0 none).prev }) ?_ _ S' le_rfl hS' hgS'
          have hm1 : seqMeasure
            { dist := (discoverAux position [] (g.getD position []) s.dist rest
                s.prev 0 none).dist,
              heap := (discoverAux position [] (g.getD position []) s.dist rest
                s.prev 0 none).heap,
              prev := (discoverAux position [] (g.getD position []) s.dist rest
                s.prev 0 none).prev } =
            (discoverAux position [] (g.getD position []) s.dist rest s.prev 0
              none).dist.sum +
            (discoverAux position [] (g.getD position []) s.dist rest s.prev 0
              none).heap.length := rfl
          omega

/-- The sequential entry point returns the shortest representable cost (or
the sentinel) for in-bounds distinct endpoints. -/
theorem sequential_cost {g : Graph} {start goal dmin : Nat}
    (hwf : WellFormed g) (hstart : start < g.length) (hne : start ≠ goal)
    (hdmin : IsShortest g start goal dmin) :
    ∃ path, sequential_dijkstra g start goal =
      some (if dmin < USIZE_MAX then dmin else USIZE_MAX, path) := by
  have hwfd := wellFormedD_of_wellFormed hwf
  unfold sequential_dijkstra
  rw [if_neg hne, if_pos hstart]
  refine ⟨(seqLoop g goal
    { dist := (List.replicate g.length USIZE_MAX).set start 0
      heap := [(0, start)]
      prev := List.replicate g.length none }).2, ?_⟩
  have hfst := seqLoop_fst hwfd hdmin
    (seqMeasure { dist := (List.replicate g.length USIZE_MAX).set start 0
                  heap := [(0, start)]
                  prev := List.replicate g.length none })
    { dist := (List.replicate g.length USIZE_MAX).set start 0
      heap := [(0, start)]
      prev := List.replicate g.length none } [] le_rfl
    (sideInit g start hstart) (List.not_mem_nil goal)
  rw [← hfst]

/-- The bidirectional entry point returns the same cost for in-bounds
distinct endpoints. -/
theorem bidi_cost {g : Graph} {start goal dmin : Nat}
    (hwf : WellFormed g) (hstart : start < g.length) (hgoal : goal < g.length)
    (hne : start ≠ goal) (hdmin : IsShortest g start goal dmin) :
    ∃ path, bidirectional_dijkstra g start goal =
      some (if dmin < USIZE_MAX then dmin else USIZE_MAX, path) := by
  have hfinal : BidiInv g start goal
      (bidiLoop g (reverse_adj_list g) (bidiInit g.length start goal)) :=
    bidiLoop_inv (BidiInv g start goal)
      (fun s _ hp => bidiStep_bidiInv hwf hp) _
      (bidiInit_bidiInv hwf hstart hgoal hne)
  have hstop := bidiLoop_not_continue g (reverse_adj_list g)
    (bidiInit g.length start goal)
  simp only [bidirectional_dijkstra]
  rw [if_neg hne, if_pos ⟨hstart, hgoal⟩]
  by_cases hfin : dmin < USIZE_MAX
  · have hest := bidiExit_est hwf hstart hgoal hfinal hstop hdmin hfin
    obtain ⟨SF, SB, invF, invB, E⟩ := hfinal
    cases hj : (bidiLoop g (reverse_adj_list g)
        (bidiInit g.length start goal)).join_node with
    | none =>
      exfalso
      have := E.hjoinNone hj
      omega
    | some j =>
      simp only [hj]
      refine ⟨(reconstruct_path j (bidiLoop g (reverse_adj_list g)
          (bidiInit g.length start goal)).prev_fwd).dropLast ++
        (reconstruct_path j (bidiLoop g (reverse_adj_list g)
          (bidiInit g.length start goal)).prev_bwd).reverse, ?_⟩
      rw [if_pos hfin, hest]
  · have hbig : ∀ c, CostReach g start goal c → USIZE_MAX ≤ c := by
      intro c hc
      have := hdmin.2 c hc
      omega
    have hest := bidiExit_est_max hfinal hbig
    rw [if_neg hfin]
    cases hj : (bidiLoop g (reverse_adj_list g)
        (bidiInit g.length start goal)).join_node with
    | none =>
      simp only [hj]
      exact ⟨[], rfl⟩
    | some j =>
      simp only [hj]
      refine ⟨(reconstruct_path j (bidiLoop g (reverse_adj_list g)
          (bidiInit g.length start goal)).prev_fwd).dropLast ++
        (reconstruct_path j (bidiLoop g (reverse_adj_list g)
          (bidiInit g.length start goal)).prev_bwd).reverse, ?_⟩
      rw [hest]

/-- C1: for every well-formed graph and in-bounds pair (start, goal) with
goal reachable from start, `bidirectional_dijkstra` returns a cost and it
equals the cost returned by the reference `sequential_dijkstra` on the same
input (both equal the shortest walk cost, saturated at usize::MAX). -/
theorem claim_C1 {g : Graph} {start goal : Nat} (hwf : WellFormed g)
    (hstart : start < g.length) (hgoal : goal < g.length)
    (hreach : Reachable g start goal) :
    ∃ c pB pS, bidirectional_dijkstra g start goal = some (c, pB) ∧
      sequential_dijkstra g start goal = some (c, pS) := by
  by_cases hne : start = goal
  · refine ⟨0, [start], [start], ?_, ?_⟩
    · unfold bidirectional_dijkstra
      rw [if_pos hne]
    · unfold sequential_dijkstra
      rw [if_pos hne]
  · obtain ⟨dmin, hdmin⟩ := exists_isShortest hreach
    obtain ⟨pB, hB⟩ := bidi_cost hwf hstart hgoal hne hdmin
    obtain ⟨pS, hS⟩ := sequential_cost hwf hstart hne hdmin
    exact ⟨_, pB, pS, hB, hS⟩

/-- Witness for C1 on the two-node graph with the single edge 0 → 1 of
weight 2. -/
theorem claim_C1_witness :
    ∃ c pB pS, bidirectional_dijkstra [[(1, 2)], []] 0 1 = some (c, pB) ∧
      sequential_dijkstra [[(1, 2)], []] 0 1 = some (c, pS) :=
  claim_C1 (by decide) (by decide) (by decide)
    ⟨2, CostReach.tail 1 2 (CostReach.refl 0) (by decide)⟩

/-- A duplicate-free list of indices below `L` has at most `L` elements. -/
theorem nodup_length_le {S : List Nat} {L : Nat} (hnd : S.Nodup)
    (hb : ∀ n ∈ S, n < L) : S.length ≤ L := by
  classical
  have h2 : S.toFinset ⊆ Finset.range L := by
    intro a ha
    rw [Finset.mem_range]
    exact hb a (List.mem_toFinset.mp ha)
  calc S.length = S.toFinset.card := (List.toFinset_card_of_nodup hnd).symm
    _ ≤ (Finset.range L).card := Finset.card_le_card h2
    _ = L := Finset.card_range L

/-- Extending a genuine path by one edge at its end. -/
theorem goodPath_snoc {g : Graph} {P : List Nat} {c : Nat}
    (hgp : GoodPath g P c) :
    ∀ u v w, P.getLast? = some u → (v, w) ∈ g.getD u [] →
      GoodPath g (P ++ [v]) (c + w) := by
  induction hgp with
  | single x =>
    intro u v w hlast hmem
    have hxu : x = u := by simpa using hlast
    subst hxu
    simpa using GoodPath.cons w hmem (GoodPath.single v)
  | cons w0 hmem0 hgp0 ih =>
    rename_i u0 v0 rest0 c0
    intro u v w hlast hmem
    rw [List.getLast?_cons_cons] at hlast
    have := ih u v w hlast hmem
    have h2 := GoodPath.cons w0 hmem0 this
    rw [Nat.add_assoc]
    exact h2

/-- A genuine path over the derived reverse graph is, reversed, a genuine
path over the input graph with the same total weight. -/
theorem goodPath_rev {g : Graph} (hwf : WellFormed g) {P : List Nat} {c : Nat}
    (hgp : GoodPath (reverse_adj_list g) P c) : GoodPath g P.reverse c := by
  induction hgp with
  | single u => simpa using GoodPath.single u
  | cons w hmem hgp0 ih =>
    rename_i u v rest c0
    have hfwd : (u, w) ∈ g.getD v [] := (mem_reverse_adj_list hwf).mp hmem
    have hlast : (v :: rest).reverse.getLast? = some v := by
      rw [List.getLast?_reverse]
      rfl
    have hsn := goodPath_snoc ih v u w hlast hfwd
    rw [List.reverse_cons, Nat.add_comm]
    exact hsn

/-- Splicing two genuine paths at a common node: drop the duplicate node
from the first and concatenate; the weights add. -/
theorem goodPath_glue {g : Graph} {A : List Nat} {cA : Nat}
    (hA : GoodPath g A cA) :
    ∀ B cB j, A.getLast? = some j → GoodPath g B cB → B.head? = some j →
      GoodPath g (A.dropLast ++ B) (cA + cB) := by
  induction hA with
  | single x =>
    intro B cB j hlast hB hhead
    simpa using hB
  | cons w0 hmem0 hgp0 ih =>
    rename_i u0 v0 rest0 c0
    intro B cB j hlast hB hhead
    rw [List.getLast?_cons_cons] at hlast
    cases rest0 with
    | nil =>
      have hjv : v0 = j := by simpa using hlast
      subst hjv
      cases hgp0
      cases B with
      | nil => simp at hhead
      | cons b bt =>
        have hbv : b = v0 := by simpa using hhead
        subst hbv
        simpa using GoodPath.cons w0 hmem0 hB
    | cons r rs =>
      have hrec := ih B cB j hlast hB hhead
      have h2 : GoodPath g (u0 :: ((v0 :: r :: rs).dropLast ++ B))
          (w0 + (c0 + cB)) := by
        simp only [List.dropLast_cons₂, List.cons_append] at hrec ⊢
        exact GoodPath.cons w0 hmem0 hrec
      simpa [Nat.add_assoc] using h2

theorem reconstructAux_none (prev : List (Option Nat)) :
    ∀ f, reconstructAux prev f none = [] := by
  intro f
  cases f <;> rfl

/-- Correctness of the predecessor walk for settled nodes: with enough fuel
the collected chain, reversed, is a genuine source-to-node path whose weight
is the node's recorded distance. -/
theorem reconstructAux_spec {h : Graph} {src : Nat} {dist : List Nat}
    {heap : List HeapEntry} {prev : List (Option Nat)} {S : List Nat}
    (inv : SideInv h src dist heap prev S) :
    ∀ k node fuel, node ∈ S → S.indexOf node ≤ k → k < fuel →
      GoodPath h (reconstructAux prev fuel (some node)).reverse
        (dist.getD node 0) ∧
      (reconstructAux prev fuel (some node)).reverse.head? = some src ∧
      (reconstructAux prev fuel (some node)).reverse.getLast? = some node := by
  intro k
  induction k with
  | zero =>
    intro node fuel hnS hidx hfuel
    obtain ⟨f, rfl⟩ : ∃ f, fuel = f + 1 := ⟨fuel - 1, by omega⟩
    have hnlt : node < h.length := inv.hSbound node hnS
    have hnfin : dist.getD node 0 < USIZE_MAX := inv.hSfin node hnS
    cases hpv : prev.getD node none with
    | none =>
      have hnsrc : node = src := inv.hroot node hnlt hpv hnfin
      simp only [reconstructAux, hpv, reconstructAux_none]
      subst hnsrc
      refine ⟨?_, rfl, rfl⟩
      have h0 : dist.getD node 0 = 0 := inv.hsrc
      rw [h0]
      exact GoodPath.single node
    | some p =>
      exfalso
      have := inv.hprevIdx node p hpv hnS
      omega
  | succ k ih =>
    intro node fuel hnS hidx hfuel
    obtain ⟨f, rfl⟩ : ∃ f, fuel = f + 1 := ⟨fuel - 1, by omega⟩
    have hnlt : node < h.length := inv.hSbound node hnS
    have hnfin : dist.getD node 0 < USIZE_MAX := inv.hSfin node hnS
    cases hpv : prev.getD node none with
    | none =>
      have hnsrc : node = src := inv.hroot node hnlt hpv hnfin
      simp only [reconstructAux, hpv, reconstructAux_none]
      subst hnsrc
      refine ⟨?_, rfl, rfl⟩
      have h0 : dist.getD node 0 = 0 := inv.hsrc
      rw [h0]
      exact GoodPath.single node
    | some p =>
      obtain ⟨hpS, w, hedge, hrel, _⟩ := inv.hprev node p hnlt hpv
      have hpidx : S.indexOf p ≤ k := by
        have := inv.hprevIdx node p hpv hnS
        omega
      obtain ⟨hgood, hhead, hlast⟩ := ih p f hpS hpidx (by omega)
      simp only [reconstructAux, hpv]
      rw [List.reverse_cons]
      have hplainEq : dist.getD node 0 = dist.getD p 0 + w := by
        rw [hrel]
        refine satAdd_eq_add (satAdd_lt_max ?_)
        rw [← hrel]
        exact hnfin
      refine ⟨?_, ?_, ?_⟩
      · rw [hplainEq]
        exact goodPath_snoc hgood p node w hlast hedge
      · cases hrv : (reconstructAux prev f (some p)).reverse with
        | nil =>
          rw [hrv] at hhead
          cases hhead
        | cons a t =>
          rw [hrv] at hhead
          simpa using hhead
      · exact List.getLast?_concat _

/-- Correctness of `reconstruct_path` from the per-side invariant: for any
finite-distance node, it returns a genuine source-to-node path whose weight
is the recorded distance. -/
theorem reconstruct_correct {h : Graph} {src : Nat} {dist : List Nat}
    {heap : List HeapEntry} {prev : List (Option Nat)} {S : List Nat}
    (inv : SideInv h src dist heap prev S) {j : Nat}
    (hj : j < h.length) (hjfin : dist.getD j 0 < USIZE_MAX) :
    GoodPath h (reconstruct_path j prev) (dist.getD j 0) ∧
    (reconstruct_path j prev).head? = some src ∧
    (reconstruct_path j prev).getLast? = some j := by
  unfold reconstruct_path
  cases hpj : prev.getD j none with
  | none =>
    have hjsrc : j = src := inv.hroot j hj hpj hjfin
    simp only [reconstructAux, hpj, reconstructAux_none]
    subst hjsrc
    refine ⟨?_, rfl, rfl⟩
    have h0 : dist.getD j 0 = 0 := inv.hsrc
    rw [h0]
    exact GoodPath.single j
  | some p =>
    obtain ⟨hpS, w, hedge, hrel, _⟩ := inv.hprev j p hj hpj
    have hSlen : S.length ≤ h.length := nodup_length_le inv.hSnodup inv.hSbound
    have hkard : S.indexOf p < S.length := List.indexOf_lt_length.mpr hpS
    have hplen : prev.length = h.length := inv.hplen
    obtain ⟨hgood, hhead, hlast⟩ := reconstructAux_spec inv (S.indexOf p) p
      prev.length hpS le_rfl (by omega)
    simp only [reconstructAux, hpj]
    rw [List.reverse_cons]
    have hplainEq : dist.getD j 0 = dist.getD p 0 + w := by
      rw [hrel]
      refine satAdd_eq_add (satAdd_lt_max ?_)
      rw [← hrel]
      exact hjfin
    refine ⟨?_, ?_, ?_⟩
    · rw [hplainEq]
      exact goodPath_snoc hgood p j w hlast hedge
    · cases hrv : (reconstructAux prev prev.length (some p)).reverse with
      | nil =>
        rw [hrv] at hhead
        cases hhead
      | cons a t =>
        rw [hrv] at hhead
        simpa using hhead
    · exact List.getLast?_concat _

/-- C2: every non-empty path returned by `bidirectional_dijkstra` on a
well-formed graph is a genuine path of the input graph: consecutive nodes
are joined by edges of the graph, the chosen edge weights sum exactly to
the returned cost, and the sequence runs from `start` to `goal`. -/
theorem claim_C2 {g : Graph} {start goal c : Nat} {path : List Nat}
    (hwf : WellFormed g)
    (hret : bidirectional_dijkstra g start goal = some (c, path))
    (hnp : path ≠ []) :
    GoodPath g path c ∧ path.head? = some start ∧
      path.getLast? = some goal := by
  simp only [bidirectional_dijkstra] at hret
  by_cases hne : start = goal
  · rw [if_pos hne] at hret
    simp only [Option.some_inj, Prod.mk.injEq] at hret
    obtain ⟨hc, hpath⟩ := hret
    subst hc
    subst hpath
    refine ⟨GoodPath.single start, rfl, ?_⟩
    rw [← hne]
    simp
  · rw [if_neg hne] at hret
    by_cases hbounds : start < g.length ∧ goal < g.length
    · rw [if_pos hbounds] at hret
      have hfinal : BidiInv g start goal
          (bidiLoop g (reverse_adj_list g) (bidiInit g.length start goal)) :=
        bidiLoop_inv (BidiInv g start goal)
          (fun s _ hp => bidiStep_bidiInv hwf hp) _
          (bidiInit_bidiInv hwf hbounds.1 hbounds.2 hne)
      obtain ⟨SF, SB, invF, invB, E⟩ := hfinal
      cases hj : (bidiLoop g (reverse_adj_list g)
          (bidiInit g.length start goal)).join_node with
      | none =>
        simp only [hj, Option.some_inj, Prod.mk.injEq] at hret
        exact absurd hret.2.symm hnp
      | some j =>
        simp only [hj, Option.some_inj, Prod.mk.injEq] at hret
        obtain ⟨hc, hpath⟩ := hret
        obtain ⟨hjlt, hjF, hjB, hjsum⟩ := E.hjoin j hj
        have hF := reconstruct_correct invF hjlt hjF
        have hjltR : j < (reverse_adj_list g).length := by
          rw [reverse_adj_list_length]
          exact hjlt
        have hB := reconstruct_correct invB hjltR hjB
        have hBrev := goodPath_rev hwf hB.1
        have hBhead : (reconstruct_path j (bidiLoop g (reverse_adj_list g)
            (bidiInit g.length start goal)).prev_bwd).reverse.head? =
            some j := by
          rw [List.head?_reverse]
          exact hB.2.2
        have hBlast : (reconstruct_path j (bidiLoop g (reverse_adj_list g)
            (bidiInit g.length start goal)).prev_bwd).reverse.getLast? =
            some goal := by
          rw [List.getLast?_reverse]
          exact hB.2.1
        have hBne : (reconstruct_path j (bidiLoop g (reverse_adj_list g)
            (bidiInit g.length start goal)).prev_bwd).reverse ≠ [] := by
          intro hnil
          rw [hnil] at hBhead
          cases hBhead
        have hglue := goodPath_glue hF.1 _ _ j hF.2.2 hBrev hBhead
        refine ⟨?_, ?_, ?_⟩
        · rw [← hpath, ← hc, hjsum]
          exact hglue
        · rw [← hpath]
          cases hfp : reconstruct_path j (bidiLoop g (reverse_adj_list g)
              (bidiInit g.length start goal)).prev_fwd with
          | nil =>
            have hcontra := hF.2.1
            rw [hfp] at hcontra
            cases hcontra
          | cons a t =>
            have hastart : a = start := by
              have hh := hF.2.1
              rw [hfp] at hh
              simpa using hh
            cases t with
            | nil =>
              have haj : a = j := by
                have hh := hF.2.2
                rw [hfp] at hh
                simpa using hh
              simp only [List.dropLast_single, List.nil_append]
              rw [hBhead, ← haj, hastart]
            | cons b bt =>
              simp only [List.dropLast_cons₂, List.cons_append, List.head?_cons]
              rw [hastart]
        · rw [← hpath]
          rw [List.getLast?_append_of_ne_nil _ hBne]
          exact hBlast
    · rw [if_neg hbounds] at hret
      cases hret

/-- Unfolding of `bidirectional_dijkstra` against a computed final loop
state, stated symbolically so that instantiating it never asks the kernel
to reduce the well-founded loop. -/
theorem bidi_eq_of_loop {g : Graph} {start goal : Nat} {f : BidiState}
    (hne : ¬ start = goal) (hb : start < g.length ∧ goal < g.length)
    (hloop : bidiLoop g (reverse_adj_list g) (bidiInit g.length start goal) = f) :
    bidirectional_dijkstra g start goal =
      some (match f.join_node with
        | some join => (f.estimate,
            (reconstruct_path join f.prev_fwd).dropLast ++
            (reconstruct_path join f.prev_bwd).reverse)
        | none => (USIZE_MAX, [])) := by
  simp only [bidirectional_dijkstra]
  rw [if_neg hne, if_pos hb, hloop]

/-- Witness for C2 on the two-node graph with the single edge 0 → 1 of
weight 2: the returned path is [0, 1] with cost 2. -/
theorem claim_C2_witness :
    GoodPath [[(1, 2)], []] [0, 1] 2 ∧
      ([0, 1] : List Nat).head? = some 0 ∧
      ([0, 1] : List Nat).getLast? = some 1 := by
  have hfin : bidiLoop [[(1, 2)], []] (reverse_adj_list [[(1, 2)], []])
      (bidiInit (List.length ([[(1, 2)], []] : Graph)) 0 1) =
      { dist_fwd := [0, USIZE_MAX], dist_bwd := [2, 0],
        heap_fwd := [(0, 0)], heap_bwd := [(2, 0)],
        prev_fwd := [none, none], prev_bwd := [some 1, none],
        estimate := 2, join_node := some 0 } := by
    rw [bidiLoop_continue (by decide), bidiLoop_stop (by decide)]
    decide
  have hret : bidirectional_dijkstra [[(1, 2)], []] 0 1 = some (2, [0, 1]) :=
    (bidi_eq_of_loop (by decide) (by decide) hfin).trans (by decide)
  exact claim_C2 (by decide) hret (by decide)

end PBD
